import Mathlib

/-!
Verification of the PhyloWeaver tree-editor core (src/src/useVersionCheck.ts).

The TypeScript `TreeNode` objects are modelled by the inductive `TreeNode`
below.  Notes on the embedding:

* JavaScript numbers are modelled by `ℚ` (exact rationals); `undefined`
  numeric/string fields are modelled by `Option`.
* The source treats `children === undefined` and `children === []`
  identically (every test is `!node.children?.length`), so both are
  modelled as the empty list.
* Object identity of a child inside its parent's `children` array is
  modelled positionally (by index / path from the root).
* JavaScript whitespace (for `trim`, `/\s/` and the serializer's
  whitespace-to-underscore replacement) is modelled by the four common
  whitespace characters (space, tab, CR, LF).
-/

structure NodeData where
  id : Option Nat := none
  name : Option String := none
  length : Option ℚ := none
  edgeColor : Option String := none
  edgeWidth : Option ℚ := none
  collapsed : Bool := false
deriving DecidableEq, Repr

inductive TreeNode : Type where
  | mk (data : NodeData) (children : List TreeNode)

def TreeNode.data : TreeNode → NodeData
  | .mk d _ => d

def TreeNode.children : TreeNode → List TreeNode
  | .mk _ cs => cs

mutual
/-- Number of nodes of a tree (used as a fuel bound for the unary-collapse
loop). -/
def treeSize : TreeNode → ℕ
  | .mk _ cs => 1 + treeSizeList cs
def treeSizeList : List TreeNode → ℕ
  | [] => 0
  | c :: cs => treeSize c + treeSizeList cs
end

mutual
/-- `Number.isFinite(c.length) ? c.length : 0` summed over every node:
the total of all defined `length` fields of a tree. -/
def totalLen : TreeNode → ℚ
  | .mk d cs => d.length.getD 0 + totalLenList cs
def totalLenList : List TreeNode → ℚ
  | [] => 0
  | c :: cs => totalLen c + totalLenList cs
end

mutual
/-- Names of the tips (nodes with no children) in document order. -/
def leafNames : TreeNode → List (Option String)
  | .mk d [] => [d.name]
  | .mk _ (c :: cs) => leafNamesList (c :: cs)
def leafNamesList : List TreeNode → List (Option String)
  | [] => []
  | c :: cs => leafNames c ++ leafNamesList cs
end

mutual
/-- Number of tips of a tree (`collectTips(root).length`). -/
def numTips : TreeNode → ℕ
  | .mk _ [] => 1
  | .mk _ (c :: cs) => numTipsList (c :: cs)
def numTipsList : List TreeNode → ℕ
  | [] => 0
  | c :: cs => numTips c + numTipsList cs
end

/-! ### Newick codec (`parseNewick` / `toNewick`) -/

/-- JS whitespace as used by `trim`, `/\s/` and the name normalizer
(restricted to the four common whitespace characters). -/
def wsChar (c : Char) : Bool :=
  c == ' ' || c == '\t' || c == '\n' || c == '\r'

/-- `name.replace(/[\s\t\n\r]/g, "_")`, on the character list. -/
def normChars (l : List Char) : List Char :=
  l.map fun c => if wsChar c then '_' else c

/-- `name.replace(/[\s\t\n\r]/g, "_")`. -/
def normName (s : String) : String := ⟨normChars s.toList⟩

/-- The integer `n` with `x.toFixed(6) = n / 10^6` (round half away from
zero towards `+∞`, as in the `toFixed` specification, on the idealised
rational value). -/
def toFixed6 (q : ℚ) : ℤ := ⌊q * 1000000 + 1 / 2⌋

def digitChar (d : ℕ) : Char := Char.ofNat (48 + d)

/-- `+q.toFixed(6)` as a rational: the 6-decimal rounding of `q`. -/
def round6 (q : ℚ) : ℚ := (toFixed6 q : ℚ) / 1000000

/-- Decimal digits of a natural number, most significant first. -/
def natChars (m : ℕ) : List Char :=
  if m = 0 then ['0'] else ((Nat.digits 10 m).reverse.map digitChar)

/-- Character rendering of the fractional part `f/10^6` (`0 < f < 10^6`):
six digits, leading zeros kept, trailing zeros stripped. -/
def fracChars (f : ℕ) : List Char :=
  let ds := Nat.digits 10 f
  (((ds ++ List.replicate (6 - ds.length) 0).dropWhile (· = 0)).reverse).map digitChar

/-- Characters of `String(+q.toFixed(6))`: the canonical decimal rendering
of `toFixed6 q / 10^6`. -/
def renderLen (q : ℚ) : List Char :=
  let n := toFixed6 q
  let m := n.natAbs
  let i := m / 1000000
  let f := m % 1000000
  (if n < 0 then ['-'] else []) ++
    (if f = 0 then natChars i else natChars i ++ '.' :: fracChars f)

/-- The name part of a node's rendering: the normalized name, with the
`"Unnamed"` default applied on leaves. -/
def labelChars (d : NodeData) (leaf : Bool) : List Char :=
  let name := normChars (d.name.getD "").toList
  if leaf && name.isEmpty then ['U', 'n', 'n', 'a', 'm', 'e', 'd'] else name

/-- The `name` and `:length` suffix a node renders with. -/
def serLabel (d : NodeData) (leaf : Bool) : List Char :=
  let len : List Char := match d.length with
    | some q => ':' :: renderLen q
    | none => []
  labelChars d leaf ++ len

mutual
/-- Characters of the `rec` helper of `toNewick`. -/
def serTree : TreeNode → List Char
  | .mk d [] => serLabel d true
  | .mk d (c :: rest) => '(' :: ((serTree c ++ serMore rest) ++ ')' :: serLabel d false)
/-- Remaining children, each preceded by the `","` of `join(",")`. -/
def serMore : List TreeNode → List Char
  | [] => []
  | c :: rest => ',' :: (serTree c ++ serMore rest)
end

def toNewick (t : TreeNode) : String := ⟨serTree t ++ [';']⟩

/-- A (normalized) name the parser reads back verbatim: none of the
characters that end the parser's name loop. -/
def wfName (s : Option String) : Bool :=
  (normChars (s.getD "").toList).all fun c =>
    !(c = ':' || c = ',' || c = ')' || c = ';')

/-- A leaf's rendered name must not look like an opening group. -/
def leafNameOk (s : Option String) : Bool :=
  match normChars (s.getD "").toList with
  | [] => true
  | c :: _ => c != '('

mutual
/-- Newick-safe trees: every name is free of the parser's delimiter
characters and no leaf name starts with `(`. -/
def wfTree : TreeNode → Bool
  | .mk d [] => wfName d.name && leafNameOk d.name
  | .mk d (c :: cs) => wfName d.name && wfTree c && wfTreeList cs
def wfTreeList : List TreeNode → Bool
  | [] => true
  | c :: cs => wfTree c && wfTreeList cs
end

mutual
/-- The tree the parser reconstructs from a serialized tree: names
whitespace-normalized, empty leaf names defaulted to `"Unnamed"`, empty
internal names dropped, and each length replaced by its 6-decimal
rounding. -/
def rtTree : TreeNode → TreeNode
  | .mk d [] =>
    .mk { name := some ⟨labelChars d true⟩, length := d.length.map round6 } []
  | .mk d (c :: cs) =>
    .mk { name := if labelChars d false = [] then none else some ⟨labelChars d false⟩,
          length := d.length.map round6 }
      (rtTree c :: rtTreeList cs)
def rtTreeList : List TreeNode → List TreeNode
  | [] => []
  | c :: cs => rtTree c :: rtTreeList cs
end

/-- `parseFloat` prefix parsing: digit characters. -/
def isDigitChar (c : Char) : Bool := Nat.blt 47 c.toNat && Nat.blt c.toNat 58

def charVal (c : Char) : ℕ := c.toNat - 48

/-- Split off the leading run of decimal digit characters. -/
def takeDigits : List Char → List ℕ × List Char
  | [] => ([], [])
  | c :: cs =>
    if isDigitChar c then
      let (ds, rest) := takeDigits cs
      (charVal c :: ds, rest)
    else ([], c :: cs)

/-- Value of a big-endian digit list. -/
def ofDigitsBE (L : List ℕ) : ℕ := L.foldl (fun a d => 10 * a + d) 0

/-- The optional sign at the front of a `parseFloat` numeral. -/
def parseSign : List Char → ℚ × List Char
  | '-' :: rest => (-1, rest)
  | '+' :: rest => (1, rest)
  | cs => (1, cs)

/-- The optional `.digits` fractional part of a `parseFloat` numeral. -/
def parseFrac : List Char → List ℕ × List Char
  | '.' :: rest => takeDigits rest
  | cs => ([], cs)

def parseExpSign : List Char → ℤ × List Char
  | '-' :: r => (-1, r)
  | '+' :: r => (1, r)
  | cs => (1, cs)

/-- The optional `e±digits` exponent of a `parseFloat` numeral. -/
def parseExp : List Char → ℤ
  | 'e' :: rest | 'E' :: rest =>
    let (esgn, rest') := parseExpSign rest
    let (eDs, _) := takeDigits rest'
    if eDs = [] then 0 else esgn * ofDigitsBE eDs
  | _ => 0

/-- Model of JavaScript `parseFloat` on a character list (`none` = `NaN`).
Decimal notation with optional sign and exponent; the `Infinity` literal
and other leading garbage yield `none` (the tree editor only ever feeds
it decimal numerals or garbage that it maps to `0`). -/
def parseFloatQ (cs0 : List Char) : Option ℚ :=
  let cs := cs0.dropWhile fun c => wsChar c
  let (sgn, cs) := parseSign cs
  let (intDs, cs) := takeDigits cs
  let (fracDs, cs) := parseFrac cs
  if intDs = [] ∧ fracDs = [] then none
  else
    some (sgn * ((ofDigitsBE intDs : ℚ) + (ofDigitsBE fracDs : ℚ) / 10 ^ fracDs.length) *
      (10 : ℚ) ^ parseExp cs)

structure ParseErr where
  offset : ℕ
deriving DecidableEq, Repr

/-- Call modes of the recursive-descent parser: `one` is `parseSubtree`,
`many acc` is the children loop inside the `"("` branch. -/
inductive PMode : Type where
  | one : PMode
  | many : List TreeNode → PMode

inductive PRes : Type where
  | one : TreeNode → PRes
  | many : List TreeNode → PRes

/-- `eatWhitespace`, tracking the character offset. -/
def eatWS : List Char → ℕ → List Char × ℕ
  | [], p => ([], p)
  | c :: cs, p => if wsChar c then eatWS cs (p + 1) else (c :: cs, p)

/-- The label loop: consume characters other than `:`, `,`, `)`, `;`. -/
def takeName : List Char → ℕ → List Char × List Char × ℕ
  | [], p => ([], [], p)
  | c :: cs, p =>
    if c = ':' || c = ',' || c = ')' || c = ';' then ([], c :: cs, p)
    else
      let (nm, rest, p') := takeName cs (p + 1)
      (c :: nm, rest, p')

/-- The length loop: consume characters other than `,`, `)`, `;`. -/
def takeLenChars : List Char → ℕ → List Char × List Char × ℕ
  | [], p => ([], [], p)
  | c :: cs, p =>
    if c = ',' || c = ')' || c = ';' then ([], c :: cs, p)
    else
      let (nm, rest, p') := takeLenChars cs (p + 1)
      (c :: nm, rest, p')

/-- `String.prototype.trim` on a character list. -/
def trimWS (l : List Char) : List Char :=
  ((l.dropWhile fun c => wsChar c).reverse.dropWhile fun c => wsChar c).reverse

/-- The label/length suffix of `parseSubtree` (everything after the
optional children group). -/
def finishNode (kids : List TreeNode) (cs : List Char) (pos : ℕ) :
    PRes × List Char × ℕ :=
  let (cs1, p1) := eatWS cs pos
  let (nameCs, cs2, p2) := takeName cs1 p1
  let nm := trimWS nameCs
  let nameField : Option String := if nm = [] then none else some ⟨nm⟩
  match cs2 with
  | ':' :: rest =>
    let (lenCs, cs3, p3) := takeLenChars rest (p2 + 1)
    (.one (.mk { name := nameField, length := some ((parseFloatQ lenCs).getD 0) } kids), cs3, p3)
  | _ => (.one (.mk { name := nameField, length := none } kids), cs2, p2)

/-- The two mutually recursive loops of `parseNewick`, packed into one
function that is structurally recursive on a fuel parameter (`.one` is
`parseSubtree`, `.many` the children loop).  Fuel exhaustion and the two
cross-mode result arms are unreachable for the fuel chosen by
`parseNewick` (each call chain performs at most `2·length+2` calls). -/
def parseRun : ℕ → PMode → List Char → ℕ → Except ParseErr (PRes × List Char × ℕ)
  | 0, _, _, pos => .error ⟨pos⟩
  | fuel + 1, .one, cs, pos =>
    let (cs1, p1) := eatWS cs pos
    match cs1 with
    | '(' :: rest =>
      match parseRun fuel (.many []) rest (p1 + 1) with
      | .error e => .error e
      | .ok (.many kids, cs2, p2) => .ok (finishNode kids cs2 p2)
      | .ok (.one _, _, p2) => .error ⟨p2⟩
    | _ => .ok (finishNode [] cs1 p1)
  | fuel + 1, .many acc, cs, pos =>
    match parseRun fuel .one cs pos with
    | .error e => .error e
    | .ok (.one node, cs1, p1) =>
      let (cs2, p2) := eatWS cs1 p1
      match cs2 with
      | ',' :: rest => parseRun fuel (.many (acc ++ [node])) rest (p2 + 1)
      | ')' :: rest => .ok (.many (acc ++ [node]), rest, p2 + 1)
      | _ => .error ⟨p2⟩
    | .ok (.many _, _, p1) => .error ⟨p1⟩

/-- `parseNewick`: parse a subtree from the start of the string (the
trailing `";"` and any unconsumed text are ignored, as in the source). -/
def parseNewick (s : String) : Except ParseErr TreeNode :=
  match parseRun (2 * s.length + 4) .one s.toList 0 with
  | .error e => .error e
  | .ok (.one t, _, _) => .ok t
  | .ok (.many _, _, p) => .error ⟨p⟩

def exampleNewick : String := "((A:0.1,B:0.2)95/0.98:0.3,(C:0.3,D:0.4)88/0.92:0.5);"

def exampleTree : TreeNode :=
  .mk {} [
    .mk { name := some "95/0.98", length := some (3/10) } [
      .mk { name := some "A", length := some (1/10) } [],
      .mk { name := some "B", length := some (2/10) } []],
    .mk { name := some "88/0.92", length := some (5/10) } [
      .mk { name := some "C", length := some (3/10) } [],
      .mk { name := some "D", length := some (4/10) } []]]

/-! ### Tree utilities and topology editing -/

/-- Lookup of a node by its position (child-index path) from the root;
positions model JavaScript object identity of nodes inside a tree. -/
def getPath : TreeNode → List ℕ → Option TreeNode
  | t, [] => some t
  | t, i :: p =>
    match t.children.get? i with
    | some c => getPath c p
    | none => none

/-- Replace the `length` field of the root node of `t`. -/
def withLen (t : TreeNode) (q : ℚ) : TreeNode :=
  .mk { t.data with length := some q } t.children

mutual
/-- `build` of `rerootAt` applied in the direction of an original child:
only the `name` is copied, and every node receives the (defaulted-to-`0`)
original length of the edge to its original parent. -/
def buildDown : TreeNode → TreeNode
  | .mk d cs => .mk { name := d.name, length := some (d.length.getD 0) } (buildDownList cs)
def buildDownList : List TreeNode → List TreeNode
  | [] => []
  | c :: cs => buildDown c :: buildDownList cs
end

/-- The depth-first rebuild of `rerootAt` along the path to the new root.
`acc` is the rebuilt tree hanging in the direction of the original
parent (still without a `length`; the adjacency list stores the parent
entry before the child entries, so it becomes the first child). -/
def rerootAux : TreeNode → Option TreeNode → List ℕ → Option TreeNode
  | n, acc, [] =>
    some (.mk { name := n.data.name }
      ((match acc with
        | some a => [withLen a (n.data.length.getD 0)]
        | none => []) ++ buildDownList n.children))
  | n, acc, i :: p =>
    match n.children.get? i with
    | none => none
    | some c =>
      rerootAux c
        (some (.mk { name := n.data.name }
          ((match acc with
            | some a => [withLen a (n.data.length.getD 0)]
            | none => []) ++ buildDownList (n.children.eraseIdx i)))) p

/-- `rerootAt(root, newRootData)`: rebuild the tree rooted at the node at
`path`; if the path resolves to no node the original root is returned
unchanged (the source scans for the node by object identity and returns
`root` on a miss). -/
def rerootAt (root : TreeNode) (path : List ℕ) : TreeNode :=
  match rerootAux root none path with
  | some r => r
  | none => root

/-- A two-node tree whose root carries a `length`: the smallest input on
which rerooting changes both the leaf-name multiset and the total branch
length (rerooting at a leaf turns the old root into the only leaf, and
the old root's own `length` is deleted by the rebuild). -/
def rerootCx : TreeNode :=
  .mk { name := some "R", length := some 5 }
    [.mk { name := some "A", length := some 1 } []]

/-- `eps = Math.max(1e-9, L * 1e-6)` of `splitEdge`. -/
def splitEps (L : ℚ) : ℚ := max (1 / 1000000000) (L * (1 / 1000000))

/-- `tt = Math.min(Math.max(t, eps), Math.max(eps, L - eps))` of
`splitEdge`. -/
def splitClamp (t L : ℚ) : ℚ :=
  min (max t (splitEps L)) (max (splitEps L) (L - splitEps L))

/-- The new internal node of `splitEdge`: name `""`, length `tt`, and the
re-lengthed child (`Math.max(0, L - tt)`) as its only child. -/
def splitNewInternal (child : TreeNode) (t : ℚ) : TreeNode :=
  .mk { name := some "", length := some (splitClamp t (child.data.length.getD 0)) }
    [.mk { child.data with
        length := some (max 0 (child.data.length.getD 0 -
          splitClamp t (child.data.length.getD 0))) }
      child.children]

/-- `splitEdge(parentNode, childNode, t)`; the child is designated by its
index in `parent.children` (object identity is positional in this model,
so the source's `findIndex` miss-branch, which would push onto the
children array, cannot arise and is mapped to `none`).  Returns the
updated parent together with the new internal node. -/
def splitEdge (parent : TreeNode) (childIdx : ℕ) (t : ℚ) :
    Option (TreeNode × TreeNode) :=
  match parent.children.get? childIdx with
  | none => none
  | some child =>
    some (.mk parent.data (parent.children.set childIdx (splitNewInternal child t)),
      splitNewInternal child t)

/-- JavaScript truthiness of an optional string (`undefined` and `""` are
falsy). -/
def strTruthy : Option String → Bool
  | none => false
  | some s => !s.isEmpty

/-- Splicing a unary node `ch = ⟨chD, [gc]⟩` out: the grandchild absorbs
`ch`'s length (when finite) and inherits `ch`'s edge color/width when it
has none of its own. -/
def mergeUp (chD : NodeData) (gc : TreeNode) : TreeNode :=
  .mk
    { gc.data with
      length :=
        match chD.length with
        | some l => some (gc.data.length.getD 0 + l)
        | none => gc.data.length
      edgeColor :=
        if strTruthy chD.edgeColor && !strTruthy gc.data.edgeColor then chD.edgeColor
        else gc.data.edgeColor
      edgeWidth :=
        match chD.edgeWidth, gc.data.edgeWidth with
        | some w, none => if 0 < w then some w else none
        | _, gw => gw }
    gc.children

/-- The splice-and-re-examine loop (`splice(i, 1, gc); i--`) applied at
one child position until the occupant is no longer unary.  The fuel is
an upper bound on the merge-chain length; `spliceFull` supplies one that
always suffices. -/
def spliceSteps : ℕ → TreeNode → TreeNode
  | 0, t => t
  | fuel + 1, t =>
    match t with
    | .mk d [gc] => spliceSteps fuel (mergeUp d gc)
    | _ => t

def spliceFull (t : TreeNode) : TreeNode := spliceSteps (treeSize t) t

mutual
/-- `collapseUnaryInPlace`: children are processed recursively first, then
every unary child is replaced by its merged grandchild (the root itself
is never spliced). -/
def collapseUnary : TreeNode → TreeNode
  | .mk d cs => .mk d (collapseKids cs)
def collapseKids : List TreeNode → List TreeNode
  | [] => []
  | c :: cs => spliceFull (collapseUnary c) :: collapseKids cs
end

mutual
/-- No node strictly below the root has exactly one child (the shape
`collapseUnaryInPlace` is meant to establish). -/
def goodBelow : TreeNode → Bool
  | .mk _ cs => goodBelowList cs
def goodBelowList : List TreeNode → Bool
  | [] => true
  | c :: cs => ((c.children.length != 1) && goodBelow c) && goodBelowList cs
end

/-- `exampleTree` after leaf `D` has been deleted (the spec's
delete-then-collapse scenario): the `88/0.92` internal node is left
unary over `C`. -/
def exampleDeleted : TreeNode :=
  .mk {} [
    .mk { name := some "95/0.98", length := some (3/10) } [
      .mk { name := some "A", length := some (1/10) } [],
      .mk { name := some "B", length := some (2/10) } []],
    .mk { name := some "88/0.92", length := some (5/10) } [
      .mk { name := some "C", length := some (3/10) } []]]

mutual
/-- `ensureIds`: pre-order pass assigning the next counter value to every
node whose id is missing (or `0`, which is falsy).  The global mutable
counter `__ID` is threaded explicitly. -/
def ensureIds : TreeNode → ℕ → TreeNode × ℕ
  | .mk d cs, c0 =>
    if d.id.getD 0 = 0 then
      (.mk { d with id := some c0 } (ensureIdsList cs (c0 + 1)).1,
        (ensureIdsList cs (c0 + 1)).2)
    else
      (.mk d (ensureIdsList cs c0).1, (ensureIdsList cs c0).2)
def ensureIdsList : List TreeNode → ℕ → List TreeNode × ℕ
  | [], c0 => ([], c0)
  | t :: ts, c0 =>
    ((ensureIds t c0).1 :: (ensureIdsList ts (ensureIds t c0).2).1,
      (ensureIdsList ts (ensureIds t c0).2).2)
end

/-! ### Edit session history -/

def HISTORY_LIMIT : ℕ := 50

/-- The history-related state of the editor: the current tree, the
snapshot stack and the pointer into it (`-1` before initialisation). -/
structure HistState (α : Type) where
  current : α
  stack : List α
  index : ℤ

/-- `commitTree(nextTree, options)` restricted to its history behaviour
(cloning is the identity in a value model). -/
def commitTree {α : Type} (s : HistState α) (snap : α) (skipHistory : Bool) :
    HistState α :=
  if skipHistory then { s with current := snap }
  else
    let trimmed := if 0 ≤ s.index then s.stack.take (s.index.toNat + 1) else []
    let pushed := trimmed ++ [snap]
    let limited :=
      if HISTORY_LIMIT < pushed.length then pushed.drop (pushed.length - HISTORY_LIMIT)
      else pushed
    { current := snap, stack := limited, index := (limited.length : ℤ) - 1 }

/-- `handleUndo`: move the pointer one step back and make that snapshot
current (via `commitTree` with `skipHistory`), a no-op at the oldest
entry.  The `getD` fallback is unreachable: the source indexes
`historyStack[historyIndex - 1]`, which is in range whenever the
invariant `index < stack.length` holds. -/
def handleUndo {α : Type} (s : HistState α) : HistState α :=
  if s.index ≤ 0 then s
  else
    { current := s.stack.getD (s.index - 1).toNat s.current
      stack := s.stack
      index := s.index - 1 }

/-- A sequence of history-recording commits. -/
def commitSeq {α : Type} (s : HistState α) (snaps : List α) : HistState α :=
  snaps.foldl (fun st sn => commitTree st sn false) s

/-- Repeated undo. -/
def undoIter {α : Type} : ℕ → HistState α → HistState α
  | 0, s => s
  | k + 1, s => undoIter k (handleUndo s)

/-! ### Layout: vertical positions -/

mutual
/-- The `post` traversal of the layout snapshot: returns the Y coordinate
of the node, the Y coordinates handed to the leaves (in document order)
and the next leaf index.  A leaf receives `idx * gap` (and `idx` is
incremented); an internal node receives the arithmetic mean (`d3.mean`)
of its children's values. -/
def postY : TreeNode → ℕ → ℚ → ℚ × List ℚ × ℕ
  | .mk _ [], idx, gap => ((idx : ℚ) * gap, [(idx : ℚ) * gap], idx + 1)
  | .mk _ (c :: cs), idx, gap =>
    ((postYList (c :: cs) idx gap).1.sum / ((postYList (c :: cs) idx gap).1.length : ℚ),
      (postYList (c :: cs) idx gap).2.1, (postYList (c :: cs) idx gap).2.2)
def postYList : List TreeNode → ℕ → ℚ → List ℚ × List ℚ × ℕ
  | [], idx, _ => ([], [], idx)
  | c :: cs, idx, gap =>
    ((postY c idx gap).1 :: (postYList cs (postY c idx gap).2.2 gap).1,
      (postY c idx gap).2.1 ++ (postYList cs (postY c idx gap).2.2 gap).2.1,
      (postYList cs (postY c idx gap).2.2 gap).2.2)
end

/-! ### C5: bounded history -/

/-- The editor's history invariant: the pointer sits at the top of the
stack, the stack is nonempty, holds at most `HISTORY_LIMIT` snapshots,
and the current tree is the top snapshot. -/
def histInv {α : Type} (s : HistState α) : Prop :=
  s.index = (s.stack.length : ℤ) - 1 ∧ s.stack ≠ [] ∧
    s.stack.length ≤ HISTORY_LIMIT ∧ s.stack.getLast? = some s.current

/-- Invariant used while undoing: the pointer is in range and `current`
is the snapshot it points at. -/
def undoInv {α : Type} (s : HistState α) : Prop :=
  0 ≤ s.index ∧ s.index < (s.stack.length : ℤ) ∧
    s.stack[s.index.toNat]? = some s.current

/-! ### C8: identifier assignment -/

mutual
/-- Pre-order list of the (0-defaulted) `__id` values of a tree; `0`
stands for a missing/falsy id. -/
def allIds : TreeNode → List ℕ
  | .mk d cs => d.id.getD 0 :: allIdsList cs
def allIdsList : List TreeNode → List ℕ
  | [] => []
  | c :: cs => allIds c ++ allIdsList cs
end

/-- The distinctness condition that ids coming from earlier passes of the
same session counter satisfy: any two truthy ids differ. -/
def truthyDistinct (l : List ℕ) : Prop :=
  l.Pairwise fun a b => a ≠ 0 → b ≠ 0 → a ≠ b

@[simp] theorem TreeNode.data_mk (d : NodeData) (cs : List TreeNode) :
    (TreeNode.mk d cs).data = d := rfl

@[simp] theorem TreeNode.children_mk (d : NodeData) (cs : List TreeNode) :
    (TreeNode.mk d cs).children = cs := rfl

theorem TreeNode.eta (t : TreeNode) : TreeNode.mk t.data t.children = t := by
  cases t; rfl

/-- Structural induction principle for the rose tree `TreeNode`. -/
theorem TreeNode.ind {P : TreeNode → Prop}
    (h : ∀ d cs, (∀ c ∈ cs, P c) → P (.mk d cs)) : ∀ t, P t
  | .mk d cs => h d cs (fun c hc => TreeNode.ind h c)
  termination_by t => sizeOf t
  decreasing_by
    have h1 := List.sizeOf_lt_of_mem hc
    simp only [TreeNode.mk.sizeOf_spec]
    omega

unseal Rat.add Rat.mul Rat.inv Rat.sub in
/-- Sanity check: the spec's example input parses to `exampleTree`. -/
theorem parseNewick_example : parseNewick exampleNewick = .ok exampleTree := by rfl

/-- Sanity check: the malformed example input errors at offset 12. -/
theorem parseNewick_example_err : parseNewick "(A:0.1,B:0.2" = .error ⟨12⟩ := by rfl

/-- Sanity check: `exampleTree` serializes back to the example input. -/
theorem toNewick_example : toNewick exampleTree = exampleNewick := by
  norm_num [toNewick, serTree, serMore, serLabel, normChars, renderLen, toFixed6,
    natChars, fracChars, digitChar, wsChar, exampleTree, exampleNewick]
  decide

/-- Sanity check: rerooting the example tree at the `88/0.92` node. -/
theorem rerootAt_example :
    rerootAt exampleTree [1] =
      .mk { name := some "88/0.92" } [
        .mk { name := none, length := some (5/10) } [
          .mk { name := some "95/0.98", length := some (3/10) } [
            .mk { name := some "A", length := some (1/10) } [],
            .mk { name := some "B", length := some (2/10) } []]],
        .mk { name := some "C", length := some (3/10) } [],
        .mk { name := some "D", length := some (4/10) } []] := by
  norm_num [rerootAt, rerootAux, buildDown, buildDownList, withLen, exampleTree]

/-! ### Basic equations for the mutual tree recursions -/

@[simp] theorem treeSizeList_eq (cs : List TreeNode) :
    treeSizeList cs = (cs.map treeSize).sum := by
  induction cs with
  | nil => simp [treeSizeList]
  | cons c cs ih => simp [treeSizeList, ih]

theorem treeSize_mk (d : NodeData) (cs : List TreeNode) :
    treeSize (.mk d cs) = 1 + (cs.map treeSize).sum := by
  simp [treeSize]

theorem treeSize_pos (t : TreeNode) : 1 ≤ treeSize t := by
  cases t with
  | mk d cs => simp [treeSize]

@[simp] theorem totalLenList_eq (cs : List TreeNode) :
    totalLenList cs = (cs.map totalLen).sum := by
  induction cs with
  | nil => simp [totalLenList]
  | cons c cs ih => simp [totalLenList, ih]

theorem totalLen_mk (d : NodeData) (cs : List TreeNode) :
    totalLen (.mk d cs) = d.length.getD 0 + (cs.map totalLen).sum := by
  simp [totalLen]

@[simp] theorem leafNamesList_eq (cs : List TreeNode) :
    leafNamesList cs = (cs.map leafNames).flatten := by
  induction cs with
  | nil => simp [leafNamesList]
  | cons c cs ih => simp [leafNamesList, ih]

theorem leafNames_mk (d : NodeData) (cs : List TreeNode) :
    leafNames (.mk d cs) =
      if cs.isEmpty then [d.name] else (cs.map leafNames).flatten := by
  cases cs with
  | nil => simp [leafNames]
  | cons c cs => simp [leafNames]

@[simp] theorem numTipsList_eq (cs : List TreeNode) :
    numTipsList cs = (cs.map numTips).sum := by
  induction cs with
  | nil => simp [numTipsList]
  | cons c cs ih => simp [numTipsList, ih]

theorem numTips_mk (d : NodeData) (cs : List TreeNode) :
    numTips (.mk d cs) = if cs.isEmpty then 1 else (cs.map numTips).sum := by
  cases cs with
  | nil => simp [numTips]
  | cons c cs => simp [numTips]

@[simp] theorem buildDownList_eq (cs : List TreeNode) :
    buildDownList cs = cs.map buildDown := by
  induction cs with
  | nil => simp [buildDownList]
  | cons c cs ih => simp [buildDownList, ih]

theorem buildDown_mk (d : NodeData) (cs : List TreeNode) :
    buildDown (.mk d cs) =
      .mk { name := d.name, length := some (d.length.getD 0) } (cs.map buildDown) := by
  simp [buildDown]

@[simp] theorem collapseKids_eq (cs : List TreeNode) :
    collapseKids cs = cs.map fun c => spliceFull (collapseUnary c) := by
  induction cs with
  | nil => simp [collapseKids]
  | cons c cs ih => simp [collapseKids, ih]

theorem collapseUnary_mk (d : NodeData) (cs : List TreeNode) :
    collapseUnary (.mk d cs) =
      .mk d (cs.map fun c => spliceFull (collapseUnary c)) := by
  simp [collapseUnary]

/-! ### C3: edge splitting -/

/-- C3: `splitEdge` clamps the requested distance `t` into
`[ε, L−ε]` with `ε = max(1e-9, L·1e-6)`, puts the new internal node in
the child's former position among the parent's children, makes the child
the new node's only child, and the two resulting edge lengths sum to `L`
exactly (the edge is long enough for the clamp interval to be nonempty
when `L ≥ 2·1e-9`). -/
theorem splitEdge_spec (parent child : TreeNode) (i : ℕ) (t L : ℚ)
    (hget : parent.children.get? i = some child)
    (hlen : child.data.length = some L)
    (hL : 2 / 1000000000 ≤ L) :
    splitEps L = max (1 / 1000000000) (L * (1 / 1000000)) ∧
    splitEdge parent i t =
      some (.mk parent.data (parent.children.set i
          (.mk { name := some "", length := some (splitClamp t L) }
            [.mk { child.data with length := some (L - splitClamp t L) } child.children])),
        .mk { name := some "", length := some (splitClamp t L) }
          [.mk { child.data with length := some (L - splitClamp t L) } child.children]) ∧
    splitEps L ≤ splitClamp t L ∧
    splitClamp t L ≤ L - splitEps L ∧
    splitClamp t L + (L - splitClamp t L) = L := by
  have h9 : (1 / 1000000000 : ℚ) ≤ L / 2 := by linarith
  have h6 : L * (1 / 1000000) ≤ L / 2 := by nlinarith
  have hhalf : splitEps L ≤ L / 2 := max_le h9 h6
  have hp : (0 : ℚ) < splitEps L :=
    lt_of_lt_of_le (by norm_num) (le_max_left _ _)
  have heps : splitEps L ≤ L - splitEps L := by linarith
  have hlow : splitEps L ≤ splitClamp t L :=
    le_min (le_trans (le_max_right t _) (le_refl _)) (le_max_left _ _)
  have hupp : splitClamp t L ≤ L - splitEps L := by
    rw [splitClamp, max_eq_right heps]
    exact min_le_right _ _
  have hmax0 : max 0 (L - splitClamp t L) = L - splitClamp t L := by
    apply max_eq_right
    linarith
  refine ⟨rfl, ?_, hlow, hupp, by ring⟩
  simp only [splitEdge, hget, splitNewInternal, hlen, Option.getD_some, hmax0]

unseal Rat.add Rat.mul Rat.inv Rat.sub in
/-- Witness for C3: splitting the length-`1` edge above a leaf at
`t = 1/4`. -/
theorem splitEdge_spec_witness :
    splitEps 1 = max (1 / 1000000000) (1 * (1 / 1000000)) ∧
    splitEdge (.mk {} [.mk { name := some "X", length := some 1 } []]) 0 (1 / 4) =
      some (.mk {} [.mk { name := some "", length := some (splitClamp (1 / 4) 1) }
          [.mk { name := some "X", length := some (1 - splitClamp (1 / 4) 1) } []]],
        .mk { name := some "", length := some (splitClamp (1 / 4) 1) }
          [.mk { name := some "X", length := some (1 - splitClamp (1 / 4) 1) } []]) ∧
    splitEps 1 ≤ splitClamp (1 / 4) 1 ∧
    splitClamp (1 / 4) 1 ≤ 1 - splitEps 1 ∧
    splitClamp (1 / 4) 1 + (1 - splitClamp (1 / 4) 1) = 1 :=
  splitEdge_spec (.mk {} [.mk { name := some "X", length := some 1 } []])
    (.mk { name := some "X", length := some 1 } []) 0 (1 / 4) 1
    (by rfl) (by rfl) (by norm_num)

/-! ### C10: the root is never spliced -/

/-- C10: `collapseUnaryInPlace` never removes the root itself: the number
of children of the root is always preserved (children are only replaced
in place), so a unary root stays unary. -/
theorem collapseUnary_root_children (t : TreeNode)
    (h : t.children.length = 1) : (collapseUnary t).children.length = 1 := by
  cases t with
  | mk d cs => simpa [collapseUnary_mk] using h

/-- Witness for C10: a unary root (as produced by rerooting at a leaf)
still has exactly one child after the collapse pass. -/
theorem collapseUnary_root_children_witness :
    (collapseUnary (.mk { name := some "A" }
      [.mk { name := some "R", length := some 1 }
        [.mk { name := some "B", length := some 2 } []]])).children.length = 1 :=
  collapseUnary_root_children _ (by rfl)

/-! ### C9: vertical layout positions -/

theorem postYList_fst_len (gap : ℚ) (cs : List TreeNode) : ∀ idx,
    ((postYList cs idx gap).1).length = cs.length := by
  induction cs with
  | nil => intro idx; simp [postYList]
  | cons c cs ih => intro idx; simp [postYList, ih]

theorem postY_leaves (gap : ℚ) : ∀ t idx,
    (postY t idx gap).2.2 = idx + numTips t ∧
    (postY t idx gap).2.1 =
      (List.range (numTips t)).map fun k => ((idx + k : ℕ) : ℚ) * gap := by
  intro t
  induction t using TreeNode.ind with
  | h d cs ihcs =>
    have hlist : ∀ cs', (∀ c ∈ cs', ∀ idx,
        (postY c idx gap).2.2 = idx + numTips c ∧
        (postY c idx gap).2.1 =
          (List.range (numTips c)).map fun k => ((idx + k : ℕ) : ℚ) * gap) →
        ∀ idx,
        (postYList cs' idx gap).2.2 = idx + (cs'.map numTips).sum ∧
        (postYList cs' idx gap).2.1 =
          (List.range ((cs'.map numTips).sum)).map
            fun k => ((idx + k : ℕ) : ℚ) * gap := by
      intro cs'
      induction cs' with
      | nil => intro _ idx; simp [postYList]
      | cons c cs' ihl =>
        intro hmem idx
        obtain ⟨hidx, hls⟩ := hmem c (by simp) idx
        obtain ⟨hidx', hls'⟩ :=
          ihl (fun x hx => hmem x (by simp [hx])) (idx + numTips c)
        refine ⟨?_, ?_⟩
        · simp only [postYList, hidx, hidx', List.map_cons, List.sum_cons]
          omega
        · simp only [postYList, hidx, hls, hls', List.map_cons, List.sum_cons]
          rw [List.range_add, List.map_append]
          congr 1
          rw [List.map_map]
          apply List.map_congr_left
          intro k _
          simp only [Function.comp_apply]
          push_cast
          ring
    cases cs with
    | nil =>
      intro idx
      refine ⟨by simp [postY, numTips], ?_⟩
      show [(idx : ℚ) * gap] = _
      simp [postY, numTips, List.range_succ]
    | cons c cs' =>
      intro idx
      obtain ⟨h1, h2⟩ := hlist (c :: cs') ihcs idx
      constructor
      · simp only [postY, h1, numTips, numTipsList_eq]
      · simp only [postY, h2, numTips, numTipsList_eq]

/-- C9: in the layout's vertical pass, the `i`-th leaf in left-to-right
document order receives Y position `i * gap`, every internal node's Y is
the arithmetic mean of its children's Y values, and (concretely) that
mean differs from the midpoint of the extreme children on an asymmetric
tree. -/
theorem layoutY_spec :
    (∀ t gap, (postY t 0 gap).2.1 =
      (List.range (numTips t)).map fun (k : ℕ) => (k : ℚ) * gap) ∧
    (∀ d c cs idx gap,
      (postY (.mk d (c :: cs)) idx gap).1 =
        ((postYList (c :: cs) idx gap).1).sum / ((c :: cs).length : ℚ)) ∧
    ((postY (.mk {} [.mk {} [], .mk {} [],
        .mk {} [.mk {} [], .mk {} []]]) 0 1).1 = 7 / 6 ∧
      (7 / 6 : ℚ) ≠ (0 + 5 / 2) / 2) := by
  refine ⟨?_, ?_, ?_, by norm_num⟩
  · intro t gap
    rw [(postY_leaves gap t 0).2]
    apply List.map_congr_left
    intro k _
    norm_num
  · intro d c cs idx gap
    simp only [postY, postYList_fst_len]
  · simp only [postY, postYList, numTips]
    norm_num

theorem rtake_append_absorb {α : Type} (n : ℕ) (xs ys : List α) :
    (xs.rtake n ++ ys).rtake n = (xs ++ ys).rtake n := by
  simp only [List.rtake_eq_reverse_take_reverse, List.reverse_append, List.reverse_reverse,
    List.take_append_eq_append_take, List.take_take, List.length_reverse]
  congr 2
  rw [min_eq_left (Nat.sub_le n ys.length)]

theorem rtake_concat_last {α : Type} (n : ℕ) (hn : 1 ≤ n) (xs : List α) (a : α) :
    (xs ++ [a]).rtake n = ((xs ++ [a]).drop ((xs.length + 1) - n)) ∧
    ((xs ++ [a]).rtake n).getLast? = some a ∧ (xs ++ [a]).rtake n ≠ [] := by
  have hk : (xs ++ [a]).length - n ≤ xs.length := by
    simp only [List.length_append, List.length_singleton]
    omega
  have hsplit : (xs ++ [a]).rtake n = xs.drop ((xs ++ [a]).length - n) ++ [a] := by
    rw [List.rtake, List.drop_append_eq_append_drop]
    congr 1
    rw [Nat.sub_eq_zero_of_le hk]
    rfl
  refine ⟨by simp [List.rtake], ?_, ?_⟩
  · rw [hsplit]
    exact List.getLast?_concat _
  · rw [hsplit]
    simp

theorem commitTree_inv {α : Type} (s : HistState α) (snap : α) (h : histInv s) :
    (commitTree s snap false).stack = (s.stack ++ [snap]).rtake HISTORY_LIMIT ∧
    histInv (commitTree s snap false) := by
  obtain ⟨hidx, hne, hlen, _⟩ := h
  have hpos : 1 ≤ s.stack.length := List.length_pos.mpr hne
  have h0 : (0 : ℤ) ≤ s.index := by omega
  have htoNat : s.index.toNat + 1 = s.stack.length := by omega
  have htake : s.stack.take (s.index.toNat + 1) = s.stack := by
    rw [htoNat]; exact List.take_length _
  have hcomm : commitTree s snap false =
      { current := snap
        stack := (s.stack ++ [snap]).rtake HISTORY_LIMIT
        index := (((s.stack ++ [snap]).rtake HISTORY_LIMIT).length : ℤ) - 1 } := by
    rw [commitTree]
    simp only [Bool.false_eq_true, if_false, if_pos h0, htake]
    by_cases hcase : HISTORY_LIMIT < (s.stack ++ [snap]).length
    · simp only [if_pos hcase, List.rtake]
    · simp only [if_neg hcase, List.rtake, Nat.sub_eq_zero_of_le (le_of_not_lt hcase),
        List.drop_zero]
  obtain ⟨_, hlast, hne'⟩ :=
    rtake_concat_last (α := α) HISTORY_LIMIT (by norm_num [HISTORY_LIMIT]) s.stack snap
  refine ⟨by rw [hcomm], ?_⟩
  rw [hcomm]
  refine ⟨rfl, hne', ?_, hlast⟩
  simp only [List.rtake, List.length_drop, HISTORY_LIMIT]
  omega

theorem commitSeq_inv {α : Type} (snaps : List α) : ∀ (s : HistState α), histInv s →
    (commitSeq s snaps).stack = (s.stack ++ snaps).rtake HISTORY_LIMIT ∧
    histInv (commitSeq s snaps) := by
  induction snaps with
  | nil =>
    intro s hs
    refine ⟨?_, hs⟩
    have hlen := hs.2.2.1
    simp [commitSeq, List.rtake, Nat.sub_eq_zero_of_le hlen]
  | cons a rest ih =>
    intro s hs
    obtain ⟨hstack, hinv⟩ := commitTree_inv s a hs
    have hstep : commitSeq s (a :: rest) = commitSeq (commitTree s a false) rest := by
      simp [commitSeq]
    obtain ⟨hstack', hinv'⟩ := ih (commitTree s a false) hinv
    rw [hstep, hstack', hstack]
    refine ⟨?_, hinv'⟩
    rw [rtake_append_absorb, List.append_assoc]
    rfl

theorem undoIter_spec {α : Type} : ∀ (k : ℕ) (s : HistState α), undoInv s →
    (undoIter k s).stack = s.stack ∧
    (undoIter k s).index = max (s.index - k) 0 ∧
    (undoIter k s).stack[((max (s.index - (k : ℤ)) 0).toNat)]? =
      some (undoIter k s).current := by
  intro k
  induction k with
  | zero =>
    intro s hs
    obtain ⟨h0, hlt, hget⟩ := hs
    have hmax2 : (s.index - ((0 : ℕ) : ℤ)) ⊔ 0 = s.index := by
      push_cast
      omega
    refine ⟨rfl, hmax2.symm, ?_⟩
    have hmax3 : ((s.index - ((0 : ℕ) : ℤ)) ⊔ 0).toNat = s.index.toNat := by
      rw [hmax2]
    rw [hmax3]
    exact hget
  | succ k ih =>
    intro s hs
    obtain ⟨h0, hlt, hget⟩ := hs
    have hstep : undoIter (k + 1) s = undoIter k (handleUndo s) := rfl
    by_cases hz : s.index ≤ 0
    · have hund : handleUndo s = s := by rw [handleUndo, if_pos hz]
      have hmax : (s.index - ((k : ℕ) : ℤ)) ⊔ 0 = (s.index - (((k + 1 : ℕ)) : ℤ)) ⊔ 0 := by
        push_cast
        omega
      obtain ⟨ha, hb, hc⟩ := ih s ⟨h0, hlt, hget⟩
      rw [hund] at hstep
      refine ⟨by rw [hstep, ha], by rw [hstep, hb, hmax], ?_⟩
      rw [hstep, ← hmax]
      exact hc
    · have hpos : 0 < s.index := lt_of_not_le hz
      have hvalid : (s.index - 1).toNat < s.stack.length := by omega
      have hget' : s.stack[(s.index - 1).toNat]? =
          some (s.stack.getD (s.index - 1).toNat s.current) := by
        rw [List.getD_eq_getElem?_getD, List.getElem?_eq_getElem hvalid]
        rfl
      have hund : handleUndo s =
          { current := s.stack.getD (s.index - 1).toNat s.current
            stack := s.stack
            index := s.index - 1 } := by
        rw [handleUndo, if_neg hz]
      have hinv' : undoInv (handleUndo s) := by
        rw [hund]
        refine ⟨?_, ?_, ?_⟩
        · show (0 : ℤ) ≤ s.index - 1
          omega
        · show s.index - 1 < (s.stack.length : ℤ)
          omega
        · exact hget'
      obtain ⟨ha, hb, hc⟩ := ih (handleUndo s) hinv'
      have hidx : (handleUndo s).index = s.index - 1 := by rw [hund]
      have hstk : (handleUndo s).stack = s.stack := by rw [hund]
      have hmax : ((handleUndo s).index - ((k : ℕ) : ℤ)) ⊔ 0 =
          (s.index - (((k + 1 : ℕ)) : ℤ)) ⊔ 0 := by
        rw [hidx]
        push_cast
        omega
      refine ⟨by rw [hstep, ha, hstk], by rw [hstep, hb, hmax], ?_⟩
      rw [hstep, ← hmax]
      exact hc

/-- C5: the history stack never exceeds `HISTORY_LIMIT = 50` snapshots; a
history-recording commit truncates the redo tail beyond the pointer,
appends the snapshot and keeps only the newest 50; and after at least 50
sequential commits on a fresh session the stack holds exactly the last
50 snapshots, so repeated undo only ever reaches snapshots among those
and bottoms out at the 50th-from-latest. -/
theorem history_bounded {α : Type} :
    (∀ (s : HistState α) (snap : α),
      ((commitTree s snap false).stack).length ≤ HISTORY_LIMIT) ∧
    (∀ (s : HistState α) (snap : α), 0 ≤ s.index →
      (commitTree s snap false).stack =
        (s.stack.take (s.index.toNat + 1) ++ [snap]).rtake HISTORY_LIMIT) ∧
    (∀ (t0 : α) (snaps : List α), HISTORY_LIMIT ≤ snaps.length →
      (commitSeq ⟨t0, [t0], 0⟩ snaps).stack =
        (t0 :: snaps).drop (snaps.length + 1 - HISTORY_LIMIT) ∧
      (∀ k, (undoIter k (commitSeq ⟨t0, [t0], 0⟩ snaps)).current ∈
        (t0 :: snaps).drop (snaps.length + 1 - HISTORY_LIMIT)) ∧
      (∀ k, HISTORY_LIMIT - 1 ≤ k →
        (undoIter k (commitSeq ⟨t0, [t0], 0⟩ snaps)).current =
          ((t0 :: snaps).drop (snaps.length + 1 - HISTORY_LIMIT)).getD 0 t0)) := by
  have key : ∀ (l : List α),
      (if HISTORY_LIMIT < l.length then l.drop (l.length - HISTORY_LIMIT) else l).length ≤
        HISTORY_LIMIT := by
    intro l
    by_cases h : HISTORY_LIMIT < l.length
    · rw [if_pos h]
      simp only [List.length_drop]
      omega
    · rw [if_neg h]
      omega
  refine ⟨?_, ?_, ?_⟩
  · intro s snap
    rw [commitTree]
    simp only [Bool.false_eq_true, if_false]
    exact key _
  · intro s snap h0
    rw [commitTree]
    simp only [Bool.false_eq_true, if_false, if_pos h0]
    split
    · next h => rw [List.rtake]
    · next h => rw [List.rtake, Nat.sub_eq_zero_of_le (le_of_not_lt h), List.drop_zero]
  · intro t0 snaps hlen
    have hinv0 : histInv (⟨t0, [t0], 0⟩ : HistState α) := by
      refine ⟨by simp, by simp, by simp [HISTORY_LIMIT], by simp⟩
    obtain ⟨hstack, hinv⟩ := commitSeq_inv snaps _ hinv0
    have hstack' : (commitSeq (⟨t0, [t0], 0⟩ : HistState α) snaps).stack =
        (t0 :: snaps).drop (snaps.length + 1 - HISTORY_LIMIT) := by
      rw [hstack]
      simp [List.rtake, Nat.add_comm]
    obtain ⟨hidx, hne, hsl, hlast⟩ := hinv
    have hlens : (commitSeq (⟨t0, [t0], 0⟩ : HistState α) snaps).stack.length =
        HISTORY_LIMIT := by
      rw [hstack']
      simp only [List.length_drop, List.length_cons, HISTORY_LIMIT] at *
      omega
    have hlpos : 1 ≤ (commitSeq (⟨t0, [t0], 0⟩ : HistState α) snaps).stack.length := by
      rw [hlens]; norm_num [HISTORY_LIMIT]
    have hgetlast : (commitSeq (⟨t0, [t0], 0⟩ : HistState α) snaps).stack[
        ((commitSeq (⟨t0, [t0], 0⟩ : HistState α) snaps).index).toNat]? =
        some (commitSeq (⟨t0, [t0], 0⟩ : HistState α) snaps).current := by
      rw [List.getLast?_eq_getElem?] at hlast
      rw [hidx]
      have : ((((commitSeq (⟨t0, [t0], 0⟩ : HistState α) snaps).stack.length : ℤ)) - 1).toNat =
          (commitSeq (⟨t0, [t0], 0⟩ : HistState α) snaps).stack.length - 1 := by omega
      rw [this]
      exact hlast
    have hinvU : undoInv (commitSeq (⟨t0, [t0], 0⟩ : HistState α) snaps) := by
      refine ⟨by rw [hidx]; omega, by rw [hidx]; omega, hgetlast⟩
    refine ⟨hstack', ?_, ?_⟩
    · intro k
      obtain ⟨ha, _, hc⟩ := undoIter_spec k _ hinvU
      rw [ha] at hc
      rw [← hstack']
      exact List.getElem?_mem hc
    · intro k hk
      obtain ⟨ha, _, hc⟩ := undoIter_spec k _ hinvU
      rw [ha] at hc
      have hmax0 : ((commitSeq (⟨t0, [t0], 0⟩ : HistState α) snaps).index - (k : ℤ)) ⊔ 0 = 0 := by
        rw [hidx, hlens]
        simp only [HISTORY_LIMIT] at *
        omega
      rw [hmax0] at hc
      have : ((0 : ℤ)).toNat = 0 := rfl
      rw [this] at hc
      rw [← hstack']
      rw [List.getD_eq_getElem?_getD, hc]
      rfl

/-- Witness for C5: a concrete commit with the pointer at `0`, and a
fresh session taking 55 further commits, inspected after 60 undos. -/
theorem history_bounded_witness :
    (commitTree (⟨7, [7], 0⟩ : HistState ℕ) 8 false).stack =
      ((⟨7, [7], 0⟩ : HistState ℕ).stack.take
        ((⟨7, [7], 0⟩ : HistState ℕ).index.toNat + 1) ++ [8]).rtake HISTORY_LIMIT ∧
    (commitSeq (⟨0, [0], 0⟩ : HistState ℕ) ((List.range 55).map (· + 1))).stack =
      ((0 : ℕ) :: (List.range 55).map (· + 1)).drop
        ((((List.range 55).map (· + 1)).length + 1) - HISTORY_LIMIT) ∧
    (undoIter 60 (commitSeq (⟨0, [0], 0⟩ : HistState ℕ)
        ((List.range 55).map (· + 1)))).current ∈
      ((0 : ℕ) :: (List.range 55).map (· + 1)).drop
        ((((List.range 55).map (· + 1)).length + 1) - HISTORY_LIMIT) ∧
    (undoIter 60 (commitSeq (⟨0, [0], 0⟩ : HistState ℕ)
        ((List.range 55).map (· + 1)))).current =
      (((0 : ℕ) :: (List.range 55).map (· + 1)).drop
        ((((List.range 55).map (· + 1)).length + 1) - HISTORY_LIMIT)).getD 0 0 := by
  have hlen : HISTORY_LIMIT ≤ ((List.range 55).map (· + 1)).length := by
    simp [HISTORY_LIMIT]
  have h3 := (history_bounded (α := ℕ)).2.2 0 ((List.range 55).map (· + 1)) hlen
  exact ⟨(history_bounded (α := ℕ)).2.1 ⟨7, [7], 0⟩ 8 (by norm_num),
    h3.1, h3.2.1 60, h3.2.2 60 (by norm_num [HISTORY_LIMIT])⟩

theorem ensureIds_aux : ∀ t : TreeNode, ∀ c : ℕ, 1 ≤ c →
    (∀ i ∈ allIds t, i ≠ 0 → i < c) → truthyDistinct (allIds t) →
    (c ≤ (ensureIds t c).2 ∧
      (∀ i ∈ allIds (ensureIds t c).1,
        i ≠ 0 ∧ ((i < c ∧ i ∈ allIds t) ∨ (c ≤ i ∧ i < (ensureIds t c).2))) ∧
      (allIds (ensureIds t c).1).Nodup ∧
      List.Forall₂ (fun o n => o ≠ 0 → n = o) (allIds t) (allIds (ensureIds t c).1)) := by
  intro t
  induction t using TreeNode.ind with
  | h d cs ihcs =>
    have hlist : ∀ cs', (∀ x ∈ cs', ∀ c : ℕ, 1 ≤ c →
        (∀ i ∈ allIds x, i ≠ 0 → i < c) → truthyDistinct (allIds x) →
        (c ≤ (ensureIds x c).2 ∧
          (∀ i ∈ allIds (ensureIds x c).1,
            i ≠ 0 ∧ ((i < c ∧ i ∈ allIds x) ∨ (c ≤ i ∧ i < (ensureIds x c).2))) ∧
          (allIds (ensureIds x c).1).Nodup ∧
          List.Forall₂ (fun o n => o ≠ 0 → n = o) (allIds x) (allIds (ensureIds x c).1))) →
        ∀ c : ℕ, 1 ≤ c →
        (∀ i ∈ allIdsList cs', i ≠ 0 → i < c) → truthyDistinct (allIdsList cs') →
        (c ≤ (ensureIdsList cs' c).2 ∧
          (∀ i ∈ allIdsList (ensureIdsList cs' c).1,
            i ≠ 0 ∧ ((i < c ∧ i ∈ allIdsList cs') ∨ (c ≤ i ∧ i < (ensureIdsList cs' c).2))) ∧
          (allIdsList (ensureIdsList cs' c).1).Nodup ∧
          List.Forall₂ (fun o n => o ≠ 0 → n = o)
            (allIdsList cs') (allIdsList (ensureIdsList cs' c).1)) := by
      intro cs'
      induction cs' with
      | nil =>
        intro _ c hc _ _
        simp [ensureIdsList, allIdsList]
      | cons x xs ihx =>
        intro hmem c hc hlt hdist
        simp only [truthyDistinct, allIdsList, List.pairwise_append] at hdist
        obtain ⟨hdx, hdxs, hcross⟩ := hdist
        have hltx : ∀ i ∈ allIds x, i ≠ 0 → i < c := by
          intro i hi
          exact hlt i (by simp [allIdsList, hi])
        obtain ⟨hmono, hmem1, hnd1, hf1⟩ := hmem x (by simp) c hc hltx hdx
        have hc1 : 1 ≤ (ensureIds x c).2 := le_trans hc hmono
        have hltxs : ∀ i ∈ allIdsList xs, i ≠ 0 → i < (ensureIds x c).2 := by
          intro i hi hne
          exact lt_of_lt_of_le (hlt i (by simp [allIdsList, hi]) hne) hmono
        obtain ⟨hmono', hmem2, hnd2, hf2⟩ :=
          ihx (fun y hy => hmem y (by simp [hy])) (ensureIds x c).2 hc1 hltxs hdxs
        simp only [ensureIdsList, allIdsList]
        refine ⟨le_trans hmono hmono', ?_, ?_, ?_⟩
        · intro i hi
          simp only [List.mem_append] at hi
          rcases hi with hi | hi
          · obtain ⟨hne, hor⟩ := hmem1 i hi
            refine ⟨hne, ?_⟩
            rcases hor with ⟨hlt', hmemo⟩ | ⟨hge, hlt'⟩
            · exact Or.inl ⟨hlt', List.mem_append.mpr (Or.inl hmemo)⟩
            · exact Or.inr ⟨hge, lt_of_lt_of_le hlt' hmono'⟩
          · obtain ⟨hne, hor⟩ := hmem2 i hi
            refine ⟨hne, ?_⟩
            rcases hor with ⟨hlt', hmemo⟩ | ⟨hge, hlt'⟩
            · rcases lt_or_le i c with h' | h'
              · exact Or.inl ⟨h', List.mem_append.mpr (Or.inr hmemo)⟩
              · exact Or.inr ⟨h', lt_of_lt_of_le hlt' hmono'⟩
            · exact Or.inr ⟨le_trans hmono hge, hlt'⟩
        · rw [List.nodup_append]
          refine ⟨hnd1, hnd2, ?_⟩
          intro a ha hb
          obtain ⟨hanz, haor⟩ := hmem1 a ha
          obtain ⟨hbnz, hbor⟩ := hmem2 a hb
          rcases haor with ⟨halt, hamem⟩ | ⟨hage, halt⟩
          · rcases hbor with ⟨hblt, hbmem⟩ | ⟨hbge, hblt⟩
            · exact hcross a hamem a hbmem hanz hbnz rfl
            · omega
          · rcases hbor with ⟨hblt, hbmem⟩ | ⟨hbge, hblt⟩
            · exact absurd (hlt a (by simp [allIdsList, hbmem]) hanz) (by omega)
            · omega
        · exact List.rel_append hf1 hf2
    intro c hc hlt hdist
    simp only [truthyDistinct, allIds] at hlt hdist
    rw [List.pairwise_cons] at hdist
    obtain ⟨hdhead, hdtail⟩ := hdist
    by_cases hid : d.id.getD 0 = 0
    · have hlts : ∀ i ∈ allIdsList cs, i ≠ 0 → i < c + 1 := by
        intro i hi hne
        have := hlt i (by simp [hi]) hne
        omega
      obtain ⟨hmono, hmem', hnd', hf'⟩ := hlist cs ihcs (c + 1) (by omega) hlts hdtail
      rw [ensureIds, if_pos hid]
      refine ⟨by simp only; omega, ?_, ?_, ?_⟩
      · intro i hi
        simp only [allIds, TreeNode.data_mk, List.mem_cons, Option.getD_some] at hi
        rcases hi with rfl | hi
        · exact ⟨by omega, Or.inr ⟨le_refl _, by omega⟩⟩
        · obtain ⟨hne, hor⟩ := hmem' i hi
          refine ⟨hne, ?_⟩
          rcases hor with ⟨hlt', hmemo⟩ | ⟨hge, hlt'⟩
          · exact Or.inl ⟨hlt i (by simp [allIds, hmemo]) hne, by simp [allIds, hmemo]⟩
          · exact Or.inr ⟨by omega, hlt'⟩
      · simp only [allIds, TreeNode.data_mk, Option.getD_some]
        rw [List.nodup_cons]
        refine ⟨?_, hnd'⟩
        intro hmemc
        obtain ⟨hne, hor⟩ := hmem' c hmemc
        rcases hor with ⟨hlt', hmemo⟩ | ⟨hge, _⟩
        · exact absurd (hlt c (by simp [allIds, hmemo]) hne) (by omega)
        · omega
      · simp only [allIds, TreeNode.data_mk, Option.getD_some]
        exact List.Forall₂.cons (fun h => absurd hid h) hf'
    · have hheadlt : d.id.getD 0 < c := hlt _ (by simp) hid
      obtain ⟨hmono, hmem', hnd', hf'⟩ := hlist cs ihcs c hc
        (fun i hi hne => hlt i (by simp [hi]) hne) hdtail
      rw [ensureIds, if_neg hid]
      refine ⟨by simp only; omega, ?_, ?_, ?_⟩
      · intro i hi
        simp only [allIds, TreeNode.data_mk, List.mem_cons] at hi
        rcases hi with rfl | hi
        · exact ⟨hid, Or.inl ⟨hheadlt, by simp [allIds]⟩⟩
        · obtain ⟨hne, hor⟩ := hmem' i hi
          refine ⟨hne, ?_⟩
          rcases hor with ⟨hlt', hmemo⟩ | ⟨hge, hlt'⟩
          · exact Or.inl ⟨hlt', by simp [allIds, hmemo]⟩
          · exact Or.inr ⟨hge, hlt'⟩
      · simp only [allIds, TreeNode.data_mk]
        rw [List.nodup_cons]
        refine ⟨?_, hnd'⟩
        intro hmemc
        obtain ⟨hne, hor⟩ := hmem' _ hmemc
        rcases hor with ⟨_, hmemo⟩ | ⟨hge, _⟩
        · exact hdhead _ hmemo hid hne rfl
        · omega
      · simp only [allIds, TreeNode.data_mk]
        exact List.Forall₂.cons (fun _ => rfl) hf'

theorem ensureIds_fixed : ∀ t : TreeNode, (∀ i ∈ allIds t, i ≠ 0) →
    ∀ c, ensureIds t c = (t, c) := by
  intro t
  induction t using TreeNode.ind with
  | h d cs ihcs =>
    have hlist : ∀ cs', (∀ x ∈ cs', (∀ i ∈ allIds x, i ≠ 0) →
        ∀ c, ensureIds x c = (x, c)) →
        (∀ i ∈ allIdsList cs', i ≠ 0) → ∀ c, ensureIdsList cs' c = (cs', c) := by
      intro cs'
      induction cs' with
      | nil => intro _ _ c; rfl
      | cons x xs ihx =>
        intro hmem htr c
        have hx := hmem x (by simp)
          (fun i hi => htr i (by simp [allIdsList, hi])) c
        have hxs := ihx (fun y hy => hmem y (by simp [hy]))
          (fun i hi => htr i (by simp [allIdsList, hi])) c
        simp only [ensureIdsList, hx, hxs]
    intro htr c
    have hhead : d.id.getD 0 ≠ 0 := htr _ (by simp [allIds])
    have := hlist cs ihcs (fun i hi => htr i (by simp [allIds, hi])) c
    rw [ensureIds, if_neg hhead, this]

/-- C8: `ensureIds` leaves every already-carried id unchanged and is
idempotent (a second pass, with any counter, changes nothing); and when
the pre-existing ids are pairwise distinct and below the session counter
(as ids handed out by earlier passes of the same counter are), after the
pass every node has a positive id and all ids are pairwise distinct. -/
theorem ensureIds_spec (t : TreeNode) (c : ℕ) (hc : 1 ≤ c)
    (hdist : truthyDistinct (allIds t))
    (hlt : ∀ i ∈ allIds t, i ≠ 0 → i < c) :
    (∀ i ∈ allIds (ensureIds t c).1, 0 < i) ∧
    (allIds (ensureIds t c).1).Nodup ∧
    List.Forall₂ (fun o n => o ≠ 0 → n = o) (allIds t) (allIds (ensureIds t c).1) ∧
    (∀ c₂, ensureIds (ensureIds t c).1 c₂ = ((ensureIds t c).1, c₂)) := by
  obtain ⟨hmono, hmem, hnd, hf⟩ := ensureIds_aux t c hc hlt hdist
  refine ⟨fun i hi => Nat.pos_of_ne_zero (hmem i hi).1, hnd, hf, ?_⟩
  intro c₂
  exact ensureIds_fixed _ (fun i hi => (hmem i hi).1) c₂

/-- Witness for C8: a tree with ids `3`, missing, `1` processed with the
session counter at `4`. -/
theorem ensureIds_spec_witness :
    (allIds (ensureIds (.mk { id := some 3 }
      [.mk {} [], .mk { id := some 1 } []]) 4).1).Nodup ∧
    ensureIds (ensureIds (.mk { id := some 3 }
        [.mk {} [], .mk { id := some 1 } []]) 4).1 9 =
      ((ensureIds (.mk { id := some 3 }
        [.mk {} [], .mk { id := some 1 } []]) 4).1, 9) := by
  have h := ensureIds_spec (.mk { id := some 3 } [.mk {} [], .mk { id := some 1 } []]) 4
    (by norm_num)
    (by simp [truthyDistinct, allIds, allIdsList])
    (by simp [allIds, allIdsList])
  exact ⟨h.2.1, h.2.2.2 9⟩

/-! ### C1: rerooting, leaf names and total branch length -/

theorem list_split_at {α : Type} (l : List α) (i : ℕ) (a : α)
    (h : l[i]? = some a) :
    l = l.take i ++ a :: l.drop (i + 1) ∧
      l.eraseIdx i = l.take i ++ l.drop (i + 1) := by
  obtain ⟨hi, rfl⟩ := List.getElem?_eq_some_iff.mp h
  refine ⟨?_, List.eraseIdx_eq_take_drop_succ l i⟩
  conv_lhs => rw [← List.take_append_drop i l, ← List.getElem_cons_drop l i hi]

theorem leafNames_mk_ne (d : NodeData) (cs : List TreeNode) (h : cs ≠ []) :
    leafNames (.mk d cs) = (cs.map leafNames).flatten := by
  cases cs with
  | nil => exact absurd rfl h
  | cons c cs' => simp [leafNames]

theorem totalLen_buildDown : ∀ t : TreeNode, totalLen (buildDown t) = totalLen t := by
  refine TreeNode.ind ?_
  intro d cs ih
  have h1 : cs.map (fun x => totalLen (buildDown x)) = cs.map totalLen :=
    List.map_congr_left fun c hc => ih c hc
  simp [buildDown_mk, totalLen_mk, List.map_map, Function.comp_def, h1]

theorem leafNames_buildDown : ∀ t : TreeNode, leafNames (buildDown t) = leafNames t := by
  refine TreeNode.ind ?_
  intro d cs ih
  have h1 : cs.map (fun x => leafNames (buildDown x)) = cs.map leafNames :=
    List.map_congr_left fun c hc => ih c hc
  cases cs with
  | nil => simp [buildDown_mk, leafNames_mk]
  | cons c cs' =>
    have h2 : cs'.map (fun x => leafNames (buildDown x)) = cs'.map leafNames :=
      List.map_congr_left fun x hx => ih x (List.mem_cons_of_mem _ hx)
    simp [buildDown_mk, leafNames_mk, List.map_map, Function.comp_def, h2,
      ih c (List.mem_cons_self c cs')]

theorem totalLen_withLen (a : TreeNode) (L : ℚ) (ha : a.data.length = none) :
    totalLen (withLen a L) = L + totalLen a := by
  cases a with
  | mk d cs =>
    simp only [TreeNode.data_mk] at ha
    simp [withLen, totalLen_mk, ha]

theorem leafNames_withLen (a : TreeNode) (L : ℚ) :
    leafNames (withLen a L) = leafNames a := by
  cases a with
  | mk d cs => cases cs <;> simp [withLen, leafNames_mk]

theorem rerootAux_spec (p : List ℕ) : ∀ (n a tgt : TreeNode),
    a.data.length = none → getPath n p = some tgt → tgt.children ≠ [] →
    ∃ r, rerootAux n (some a) p = some r ∧
      totalLen r = totalLen a + totalLen n ∧
      (leafNames r : Multiset (Option String)) =
        (leafNames a : Multiset (Option String)) +
          (leafNames n : Multiset (Option String)) := by
  induction p with
  | nil =>
    intro n a tgt ha hp hi
    obtain ⟨d, cs⟩ := n
    obtain rfl : TreeNode.mk d cs = tgt := by simpa [getPath] using hp
    simp only [TreeNode.children_mk] at hi
    refine ⟨.mk { name := d.name }
      (withLen a (d.length.getD 0) :: buildDownList cs), by simp [rerootAux], ?_, ?_⟩
    · simp [totalLen_mk, List.map_map, Function.comp_def, totalLen_buildDown,
        totalLen_withLen a (d.length.getD 0) ha]
      ring
    · cases cs with
      | nil => exact absurd rfl hi
      | cons c cs' =>
        simp [leafNames_mk, leafNames_withLen, List.map_map, Function.comp_def,
          leafNames_buildDown, ← Multiset.coe_add]
  | cons i p ih =>
    intro n a tgt ha hp hi
    obtain ⟨d, cs⟩ := n
    rcases hc : cs[i]? with _ | c
    · simp [getPath, hc] at hp
    · simp only [getPath, TreeNode.children_mk, List.get?_eq_getElem?, hc] at hp
      obtain ⟨r, hr, htot, hleaf⟩ :=
        ih c (.mk { name := d.name }
          (withLen a (d.length.getD 0) :: buildDownList (cs.eraseIdx i))) tgt rfl hp hi
      obtain ⟨hsp, hse⟩ := list_split_at cs i c hc
      have hcne : cs ≠ [] := by
        intro h
        subst h
        simp at hc
      have h1 : (cs.map totalLen).sum =
          ((cs.take i).map totalLen).sum + totalLen c +
            ((cs.drop (i + 1)).map totalLen).sum := by
        conv_lhs => rw [hsp]
        simp [add_assoc]
      have h2 : ((cs.eraseIdx i).map totalLen).sum =
          ((cs.take i).map totalLen).sum + ((cs.drop (i + 1)).map totalLen).sum := by
        rw [hse]
        simp
      have h3 : ((cs.map leafNames).flatten : Multiset (Option String)) =
          (((cs.eraseIdx i).map leafNames).flatten : Multiset (Option String)) +
            (leafNames c : Multiset (Option String)) := by
        conv_lhs => rw [hsp]
        rw [hse]
        simp [← Multiset.coe_add]
        abel
      refine ⟨r, ?_, ?_, ?_⟩
      · simpa [rerootAux, hc] using hr
      · rw [htot]
        simp only [totalLen_mk, buildDownList_eq, List.map_cons, List.sum_cons,
          List.map_map, Function.comp_def, totalLen_buildDown,
          totalLen_withLen a (d.length.getD 0) ha, h2, h1]
        simp
        ring
      · rw [hleaf, leafNames_mk_ne _ _ (by simp)]
        rw [leafNames_mk_ne d cs hcne]
        simp [leafNames_withLen, List.map_map, Function.comp_def, leafNames_buildDown,
          ← Multiset.coe_add, h3]
        abel

/-- C1 (amended): `rerootAt` preserves the multiset of leaf names and the
total branch length exactly, provided the target node is internal, the
target is the root itself or the root has at least two children, and the
root carries no length of its own (the rebuild deletes the old root's
`length`, and rerooting at a leaf or at the child of a unary root turns
the old root into a leaf).  The spec's concrete scenario satisfies all
three provisos. -/
theorem rerootAt_spec (t tgt : TreeNode) (path : List ℕ)
    (hpath : getPath t path = some tgt)
    (hintern : tgt.children ≠ [])
    (hroot : path = [] ∨ 2 ≤ t.children.length)
    (hlen : t.data.length.getD 0 = 0) :
    (leafNames (rerootAt t path) : Multiset (Option String)) =
      (leafNames t : Multiset (Option String)) ∧
    totalLen (rerootAt t path) = totalLen t := by
  obtain ⟨d, cs⟩ := t
  simp only [TreeNode.data_mk] at hlen
  cases path with
  | nil =>
    obtain rfl : TreeNode.mk d cs = tgt := by simpa [getPath] using hpath
    simp only [TreeNode.children_mk] at hintern
    constructor
    · rw [show rerootAt (.mk d cs) [] =
          .mk { name := d.name } (cs.map buildDown) by simp [rerootAt, rerootAux]]
      rw [leafNames_mk_ne _ _ (by simp [hintern]), leafNames_mk_ne d cs hintern]
      simp [List.map_map, Function.comp_def, leafNames_buildDown]
    · rw [show rerootAt (.mk d cs) [] =
          .mk { name := d.name } (cs.map buildDown) by simp [rerootAt, rerootAux]]
      simp [totalLen_mk, List.map_map, Function.comp_def, totalLen_buildDown, hlen]
  | cons i p =>
    have hlen2 : 2 ≤ cs.length := by
      rcases hroot with h | h
      · exact absurd h (by simp)
      · simpa using h
    rcases hc : cs[i]? with _ | c
    · simp [getPath, hc] at hpath
    · simp only [getPath, TreeNode.children_mk, List.get?_eq_getElem?, hc] at hpath
      obtain ⟨r, hr, htot, hleaf⟩ :=
        rerootAux_spec p c (.mk { name := d.name } (buildDownList (cs.eraseIdx i))) tgt
          rfl hpath hintern
      obtain ⟨hsp, hse⟩ := list_split_at cs i c hc
      have hi : i < cs.length := (List.getElem?_eq_some_iff.mp hc).1
      have hene : cs.eraseIdx i ≠ [] := by
        intro h
        have := congrArg List.length h
        rw [List.length_eraseIdx] at this
        simp [hi] at this
        omega
      have hcne : cs ≠ [] := by
        intro h
        subst h
        simp at hlen2
      have hrer : rerootAt (.mk d cs) (i :: p) = r := by
        have hr' := hr
        simp only [buildDownList_eq] at hr'
        simp [rerootAt, rerootAux, hc, hr']
      have h1 : (cs.map totalLen).sum =
          ((cs.take i).map totalLen).sum + totalLen c +
            ((cs.drop (i + 1)).map totalLen).sum := by
        conv_lhs => rw [hsp]
        simp [add_assoc]
      have h2 : ((cs.eraseIdx i).map totalLen).sum =
          ((cs.take i).map totalLen).sum + ((cs.drop (i + 1)).map totalLen).sum := by
        rw [hse]
        simp
      have h3 : ((cs.map leafNames).flatten : Multiset (Option String)) =
          (((cs.eraseIdx i).map leafNames).flatten : Multiset (Option String)) +
            (leafNames c : Multiset (Option String)) := by
        conv_lhs => rw [hsp]
        rw [hse]
        simp [← Multiset.coe_add]
        abel
      constructor
      · rw [hrer, hleaf, leafNames_mk_ne _ _ (by simp [hene]),
          leafNames_mk_ne d cs hcne]
        simp [List.map_map, Function.comp_def, leafNames_buildDown,
          ← Multiset.coe_add, h3]
      · rw [hrer, htot]
        simp only [totalLen_mk, buildDownList_eq, List.map_map, Function.comp_def,
          totalLen_buildDown, h2, h1, hlen]
        simp
        ring

/-- Witness for C1: the spec's own scenario — `exampleTree` (total branch
length `1.8 = 9/5`) rerooted at the internal node containing leaf `C`
(child index `1`) keeps the leaf-name multiset and the total length. -/
theorem rerootAt_spec_witness :
    totalLen exampleTree = 9 / 5 ∧
    (leafNames (rerootAt exampleTree [1]) : Multiset (Option String)) =
      (leafNames exampleTree : Multiset (Option String)) ∧
    totalLen (rerootAt exampleTree [1]) = totalLen exampleTree := by
  have h := rerootAt_spec exampleTree
    (.mk { name := some "88/0.92", length := some (5/10) }
      [.mk { name := some "C", length := some (3/10) } [],
       .mk { name := some "D", length := some (4/10) } []]) [1]
    (by rfl) (by simp) (.inr (by norm_num [exampleTree])) (by rfl)
  exact ⟨by norm_num [exampleTree, totalLen, totalLenList], h.1, h.2⟩

/-- Counterexample for C1 as stated: on `rerootCx` (root `R` with its own
length `5` over the single leaf `A:1`), the leaf `A` is a node already
present in the tree, yet rerooting there replaces the leaf-name multiset
`{A}` by `{R}` and drops the total branch length from `6` to `1`. -/
theorem rerootAt_counterexample :
    getPath rerootCx [0] = some (.mk { name := some "A", length := some 1 } []) ∧
    leafNames rerootCx = [some "A"] ∧
    leafNames (rerootAt rerootCx [0]) = [some "R"] ∧
    (leafNames (rerootAt rerootCx [0]) : Multiset (Option String)) ≠
      (leafNames rerootCx : Multiset (Option String)) ∧
    totalLen rerootCx = 6 ∧
    totalLen (rerootAt rerootCx [0]) = 1 ∧
    totalLen (rerootAt rerootCx [0]) ≠ totalLen rerootCx := by
  have h2 : rerootAt rerootCx [0] =
      .mk { name := some "A" } [.mk { name := some "R", length := some 1 } []] := by
    norm_num [rerootCx, rerootAt, rerootAux, buildDownList, withLen]
  have h1 : leafNames rerootCx = [some "A"] := by
    norm_num [rerootCx, leafNames, leafNamesList]
  have h3 : leafNames (rerootAt rerootCx [0]) = [some "R"] := by
    rw [h2]
    norm_num [leafNames, leafNamesList]
  have h4 : totalLen rerootCx = 6 := by
    norm_num [rerootCx, totalLen, totalLenList]
  have h5 : totalLen (rerootAt rerootCx [0]) = 1 := by
    rw [h2]
    norm_num [totalLen, totalLenList]
  refine ⟨rfl, h1, h3, ?_, h4, h5, ?_⟩
  · rw [h1, h3]
    intro h
    have h' : [(some "R" : Option String)] = [some "A"] := by
      simpa [Multiset.coe_eq_coe, List.perm_singleton] using h
    exact absurd h' (by decide)
  · rw [h4, h5]
    norm_num

/-! ### C4: unary collapse -/

@[simp] theorem goodBelowList_eq (cs : List TreeNode) :
    goodBelowList cs =
      cs.all fun c => ((c.children.length != 1) && goodBelow c) := by
  induction cs with
  | nil => simp [goodBelowList]
  | cons c cs ih => simp [goodBelowList, ih]

theorem goodBelow_mk (d : NodeData) (cs : List TreeNode) :
    goodBelow (.mk d cs) = goodBelowList cs := by
  simp [goodBelow]

theorem mergeUp_children (d : NodeData) (gc : TreeNode) :
    (mergeUp d gc).children = gc.children := by
  simp [mergeUp]

theorem treeSize_mergeUp (d : NodeData) (gc : TreeNode) :
    treeSize (mergeUp d gc) + 1 = treeSize (.mk d [gc]) := by
  cases gc with
  | mk gd gcs =>
    simp [mergeUp, treeSize_mk]
    ring

theorem spliceSteps_fix (fuel : ℕ) (t : TreeNode) (h : t.children.length ≠ 1) :
    spliceSteps fuel t = t := by
  cases fuel with
  | zero => rfl
  | succ fuel =>
    obtain ⟨d, cs⟩ := t
    match cs, h with
    | [], _ => simp [spliceSteps]
    | a :: b :: rest, _ => simp [spliceSteps]
    | [a], h => simp at h

theorem spliceSteps_notUnary : ∀ (fuel : ℕ) (t : TreeNode), treeSize t ≤ fuel →
    (spliceSteps fuel t).children.length ≠ 1 := by
  intro fuel
  induction fuel with
  | zero =>
    intro t ht
    have := treeSize_pos t
    omega
  | succ fuel ih =>
    intro t ht
    obtain ⟨d, cs⟩ := t
    match cs with
    | [] => simp [spliceSteps]
    | a :: b :: rest => simp [spliceSteps]
    | [gc] =>
      rw [show spliceSteps (fuel + 1) (.mk d [gc]) = spliceSteps fuel (mergeUp d gc)
        from by simp [spliceSteps]]
      refine ih (mergeUp d gc) ?_
      have := treeSize_mergeUp d gc
      omega

theorem spliceSteps_good : ∀ (fuel : ℕ) (t : TreeNode), goodBelow t = true →
    goodBelow (spliceSteps fuel t) = true := by
  intro fuel
  induction fuel with
  | zero => intro t h; exact h
  | succ fuel ih =>
    intro t h
    obtain ⟨d, cs⟩ := t
    match cs with
    | [] => simpa [spliceSteps] using h
    | a :: b :: rest => simpa [spliceSteps] using h
    | [gc] =>
      rw [show spliceSteps (fuel + 1) (.mk d [gc]) = spliceSteps fuel (mergeUp d gc)
        from by simp [spliceSteps]]
      refine ih (mergeUp d gc) ?_
      obtain ⟨gd, gcs⟩ := gc
      simp [goodBelow_mk, goodBelowList_eq, mergeUp] at h ⊢
      exact h.2

theorem spliceFull_notUnary (t : TreeNode) :
    (spliceFull t).children.length ≠ 1 :=
  spliceSteps_notUnary (treeSize t) t le_rfl

theorem spliceFull_good (t : TreeNode) (h : goodBelow t = true) :
    goodBelow (spliceFull t) = true :=
  spliceSteps_good (treeSize t) t h

theorem collapseUnary_good : ∀ t : TreeNode, goodBelow (collapseUnary t) = true := by
  refine TreeNode.ind ?_
  intro d cs ih
  rw [collapseUnary_mk, goodBelow_mk, goodBelowList_eq]
  rw [List.all_eq_true]
  intro x hx
  rw [List.mem_map] at hx
  obtain ⟨c, hc, rfl⟩ := hx
  simp only [Bool.and_eq_true, bne_iff_ne, ne_eq]
  exact ⟨spliceFull_notUnary _, spliceFull_good _ (ih c hc)⟩

/-- C4: `collapseUnaryInPlace` removes the internal nodes with exactly one
child (after the pass no node strictly below the root is unary); a unary
child `⟨chD, [gc]⟩` is replaced by the merged grandchild `mergeUp chD gc`,
whose length is the sum of the removed node's and the grandchild's
lengths, and which inherits the removed node's edge color/width exactly
when it has none of its own; concretely, deleting leaf `D` from the
spec's example and collapsing splices out the `88/0.92` node, leaving `C`
attached directly to the root with length `0.3 + 0.5 = 0.8`. -/
theorem collapseUnary_spec (chD : NodeData) (gc : TreeNode) (L l : ℚ)
    (hl : chD.length = some l) (hgl : gc.data.length = some L)
    (hnu : (mergeUp chD gc).children.length ≠ 1) :
    spliceFull (.mk chD [gc]) = mergeUp chD gc ∧
    (mergeUp chD gc).data.length = some (L + l) ∧
    (strTruthy chD.edgeColor = true → strTruthy gc.data.edgeColor = false →
      (mergeUp chD gc).data.edgeColor = chD.edgeColor) ∧
    (∀ w, chD.edgeWidth = some w → 0 < w → gc.data.edgeWidth = none →
      (mergeUp chD gc).data.edgeWidth = some w) ∧
    (∀ t : TreeNode, goodBelow (collapseUnary t) = true) ∧
    collapseUnary exampleDeleted =
      .mk {} [
        .mk { name := some "95/0.98", length := some (3/10) } [
          .mk { name := some "A", length := some (1/10) } [],
          .mk { name := some "B", length := some (2/10) } []],
        .mk { name := some "C", length := some (4/5) } []] := by
  refine ⟨?_, ?_, ?_, ?_, collapseUnary_good, ?_⟩
  · rw [show spliceFull (.mk chD [gc]) =
        spliceSteps (treeSize gc + 1) (.mk chD [gc]) from by
      simp [spliceFull, treeSize_mk, Nat.add_comm]]
    rw [show spliceSteps (treeSize gc + 1) (.mk chD [gc]) =
        spliceSteps (treeSize gc) (mergeUp chD gc) from by simp [spliceSteps]]
    exact spliceSteps_fix _ _ hnu
  · simp [mergeUp, hl, hgl]
  · intro h1 h2
    simp [mergeUp, h1, h2]
  · intro w hw h0 hn
    simp [mergeUp, hw, hn, h0]
  · norm_num [collapseUnary, collapseKids, spliceFull, spliceSteps, mergeUp,
      treeSize, treeSizeList, strTruthy, exampleDeleted]

/-- Witness for C4: the scenario's own unary node — `88/0.92:0.5` over the
single leaf `C:0.3` — is spliced into a single node of length `0.8`. -/
theorem collapseUnary_spec_witness :
    spliceFull (.mk { name := some "88/0.92", length := some (5/10) }
        [.mk { name := some "C", length := some (3/10) } []]) =
      mergeUp { name := some "88/0.92", length := some (5/10) }
        (.mk { name := some "C", length := some (3/10) } []) ∧
    (mergeUp { name := some "88/0.92", length := some (5/10) }
        (.mk { name := some "C", length := some (3/10) } [])).data.length =
      some (3/10 + 5/10) := by
  have h := collapseUnary_spec { name := some "88/0.92", length := some (5/10) }
    (.mk { name := some "C", length := some (3/10) } []) (3/10) (5/10)
    rfl rfl (by simp [mergeUp])
  exact ⟨h.1, h.2.1⟩

/-! ### C6: parse error on a missing continuation token -/

/-- C6: inside the children loop that an opening `(` starts, once a
subtree has been parsed and whitespace skipped, a next character that is
neither `,` nor `)` (including end of input) makes the parser fail with a
`ParseError` carrying that character offset; in particular parsing
`"(A:0.1,B:0.2"` fails with offset `12` instead of returning a partial
tree. -/
theorem parseError_continuation (fuel : ℕ) (acc : List TreeNode)
    (cs cs1 cs2 : List Char) (pos p1 p2 : ℕ) (node : TreeNode)
    (hone : parseRun fuel .one cs pos = .ok (.one node, cs1, p1))
    (hw : eatWS cs1 p1 = (cs2, p2))
    (hhd : ∀ c rest, cs2 = c :: rest → c ≠ ',' ∧ c ≠ ')') :
    parseRun (fuel + 1) (.many acc) cs pos = .error ⟨p2⟩ ∧
    parseNewick "(A:0.1,B:0.2" = .error ⟨12⟩ := by
  refine ⟨?_, by rfl⟩
  simp only [parseRun, hone, hw]
  rcases cs2 with _ | ⟨c, rest⟩
  · rfl
  · obtain ⟨h1, h2⟩ := hhd c rest rfl
    split <;> simp_all

/-- Witness for C6: the loop at `"B"` with the input exhausted after the
parsed subtree errors at offset `1`. -/
theorem parseError_continuation_witness :
    parseRun 3 (.many []) ['B'] 0 = .error ⟨1⟩ ∧
    parseNewick "(A:0.1,B:0.2" = .error ⟨12⟩ :=
  parseError_continuation 2 [] ['B'] [] [] 0 1 1 (.mk { name := some "B" } [])
    rfl rfl (by intro c rest h; cases h)

/-! ### Decimal rendering and reparsing -/

theorem foldl_digits (L : List ℕ) : ∀ a : ℕ,
    L.foldl (fun a d => 10 * a + d) a = a * 10 ^ L.length + Nat.ofDigits 10 L.reverse := by
  induction L with
  | nil => intro a; simp
  | cons d L ih =>
    intro a
    simp only [List.foldl_cons, List.length_cons, List.reverse_cons, ih,
      Nat.ofDigits_append, Nat.ofDigits_cons, Nat.ofDigits_nil, List.length_reverse]
    ring

theorem ofDigitsBE_eq (L : List ℕ) : ofDigitsBE L = Nat.ofDigits 10 L.reverse := by
  simp [ofDigitsBE, foldl_digits]

theorem ofDigits_replicate_zero (k : ℕ) :
    Nat.ofDigits 10 (List.replicate k 0) = 0 := by
  induction k with
  | zero => simp
  | succ k ih => simp [List.replicate_succ, Nat.ofDigits_cons, ih]

theorem digitChar_facts (d : ℕ) (hd : d < 10) :
    isDigitChar (digitChar d) = true ∧ charVal (digitChar d) = d ∧
    wsChar (digitChar d) = false ∧ digitChar d ≠ '-' ∧ digitChar d ≠ '+' ∧
    digitChar d ≠ '.' ∧ digitChar d ≠ ',' ∧ digitChar d ≠ ')' ∧
    digitChar d ≠ ';' ∧ digitChar d ≠ ':' ∧ digitChar d ≠ '(' ∧
    digitChar d ≠ 'e' ∧ digitChar d ≠ 'E' := by
  interval_cases d <;> refine ⟨by decide, by decide, by decide, by decide, by decide,
    by decide, by decide, by decide, by decide, by decide, by decide, by decide, by decide⟩

theorem takeDigits_append (ds : List ℕ) (rest : List Char) (h : ∀ d ∈ ds, d < 10) :
    takeDigits (ds.map digitChar ++ rest) =
      (ds ++ (takeDigits rest).1, (takeDigits rest).2) := by
  induction ds with
  | nil => simp
  | cons d ds ih =>
    have hd := digitChar_facts d (h d (List.mem_cons_self d ds))
    have ih' := ih fun x hx => h x (List.mem_cons_of_mem _ hx)
    simp only [List.map_cons, List.cons_append, takeDigits, hd.1, if_true,
      List.append_eq, ih', hd.2.1]

theorem takeDigits_nondigit (cs : List Char)
    (h : ∀ c rest, cs = c :: rest → isDigitChar c = false) :
    takeDigits cs = ([], cs) := by
  cases cs with
  | nil => rfl
  | cons c rest => simp [takeDigits, h c rest rfl]

theorem natChars_eq (i : ℕ) : ∃ ds : List ℕ,
    natChars i = ds.map digitChar ∧ ds ≠ [] ∧ (∀ d ∈ ds, d < 10) ∧ ofDigitsBE ds = i := by
  by_cases hi : i = 0
  · subst hi
    exact ⟨[0], by decide, by decide, by decide, by decide⟩
  · refine ⟨(Nat.digits 10 i).reverse, by simp [natChars, hi], by
      simp [Nat.digits_ne_nil_iff_ne_zero, hi], ?_, ?_⟩
    · intro d hd
      exact Nat.digits_lt_base (by norm_num) (List.mem_reverse.mp hd)
    · rw [ofDigitsBE_eq, List.reverse_reverse, Nat.ofDigits_digits]

theorem parseSign_other (c : Char) (r : List Char) (h1 : c ≠ '-') (h2 : c ≠ '+') :
    parseSign (c :: r) = (1, c :: r) := by
  unfold parseSign
  split <;> simp_all

theorem parseFrac_other (cs : List Char) (h : ∀ r, cs ≠ '.' :: r) :
    parseFrac cs = ([], cs) := by
  unfold parseFrac
  split <;> simp_all

theorem parseExp_other (cs : List Char) (h1 : ∀ r, cs ≠ 'e' :: r)
    (h2 : ∀ r, cs ≠ 'E' :: r) : parseExp cs = 0 := by
  unfold parseExp
  split <;> simp_all

theorem parseFloatQ_canon (neg : Bool) (i : ℕ) (fds : List ℕ)
    (hfd : ∀ d ∈ fds, d < 10) :
    parseFloatQ ((if neg then ['-'] else []) ++ natChars i ++
        (if fds = [] then [] else '.' :: fds.map digitChar)) =
      some ((if neg then (-1 : ℚ) else 1) *
        ((i : ℚ) + (ofDigitsBE fds : ℚ) / 10 ^ fds.length)) := by
  obtain ⟨ds, hnat, hne, hlt, hval⟩ := natChars_eq i
  obtain ⟨d0, ds', rfl⟩ : ∃ d0 ds', ds = d0 :: ds' := by
    cases ds with
    | nil => exact absurd rfl hne
    | cons a b => exact ⟨a, b, rfl⟩
  have h0 := digitChar_facts d0 (hlt d0 (List.mem_cons_self _ _))
  have hvalQ : ((ofDigitsBE (d0 :: ds') : ℕ) : ℚ) = (i : ℚ) := by rw [hval]
  have hnatc : natChars i = digitChar d0 :: ds'.map digitChar := by
    simpa using hnat
  rcases fds with _ | ⟨f1, fr⟩
  · have htd : takeDigits (digitChar d0 :: ds'.map digitChar) = (d0 :: ds', []) := by
      have := takeDigits_append (d0 :: ds') [] hlt
      simpa [takeDigits] using this
    have hdw : List.dropWhile (fun c => wsChar c)
        (digitChar d0 :: ds'.map digitChar) = digitChar d0 :: ds'.map digitChar := by
      simp [h0.2.2.1]
    have hps := parseSign_other (digitChar d0) (ds'.map digitChar)
      h0.2.2.2.1 h0.2.2.2.2.1
    cases neg with
    | false =>
      rw [show ((if (false : Bool) then ['-'] else []) ++ natChars i ++
          (if ([] : List ℕ) = [] then [] else '.' :: ([] : List ℕ).map digitChar)) =
          digitChar d0 :: List.map digitChar ds' from by simp [hnatc]]
      simp only [parseFloatQ, hdw, hps, htd,
        show parseFrac ([] : List Char) = ([], []) from rfl,
        show parseExp ([] : List Char) = 0 from rfl]
      simp [hvalQ, show ofDigitsBE ([] : List ℕ) = 0 from rfl]
    | true =>
      rw [show ((if (true : Bool) then ['-'] else []) ++ natChars i ++
          (if ([] : List ℕ) = [] then [] else '.' :: ([] : List ℕ).map digitChar)) =
          '-' :: (digitChar d0 :: List.map digitChar ds') from by simp [hnatc]]
      have hdwm : List.dropWhile (fun c => wsChar c)
          ('-' :: (digitChar d0 :: ds'.map digitChar)) =
          '-' :: (digitChar d0 :: ds'.map digitChar) := by
        simp [show wsChar '-' = false from rfl]
      simp only [parseFloatQ, hdwm,
        show ∀ l : List Char, parseSign ('-' :: l) = (-1, l) from fun l => rfl, htd,
        show parseFrac ([] : List Char) = ([], []) from rfl,
        show parseExp ([] : List Char) = 0 from rfl]
      simp [hvalQ, show ofDigitsBE ([] : List ℕ) = 0 from rfl]
  · have htd2 : takeDigits ((f1 :: fr).map digitChar) = (f1 :: fr, []) := by
      have := takeDigits_append (f1 :: fr) [] hfd
      simpa [takeDigits] using this
    have htd : takeDigits (digitChar d0 :: (ds'.map digitChar ++
        '.' :: (f1 :: fr).map digitChar)) =
        (d0 :: ds', '.' :: (f1 :: fr).map digitChar) := by
      have h9 := takeDigits_append (d0 :: ds') ('.' :: (f1 :: fr).map digitChar) hlt
      rw [takeDigits_nondigit ('.' :: (f1 :: fr).map digitChar)
        (by intro c rest hc; rw [List.cons.injEq] at hc; rw [← hc.1]; rfl)] at h9
      simpa using h9
    have hdw : List.dropWhile (fun c => wsChar c)
        (digitChar d0 :: (ds'.map digitChar ++ '.' :: (f1 :: fr).map digitChar)) =
        digitChar d0 :: (ds'.map digitChar ++ '.' :: (f1 :: fr).map digitChar) := by
      simp [h0.2.2.1]
    have hps := parseSign_other (digitChar d0)
      (ds'.map digitChar ++ '.' :: (f1 :: fr).map digitChar)
      h0.2.2.2.1 h0.2.2.2.2.1
    cases neg with
    | false =>
      rw [show ((if (false : Bool) then ['-'] else []) ++ natChars i ++
          (if (f1 :: fr : List ℕ) = [] then [] else '.' :: (f1 :: fr).map digitChar)) =
          digitChar d0 :: (ds'.map digitChar ++ '.' :: (f1 :: fr).map digitChar)
          from by simp [hnatc]]
      simp only [parseFloatQ, hdw, hps, htd,
        show ∀ l : List Char, parseFrac ('.' :: l) = takeDigits l from fun l => rfl,
        htd2, show parseExp ([] : List Char) = 0 from rfl]
      simp [hvalQ]
    | true =>
      rw [show ((if (true : Bool) then ['-'] else []) ++ natChars i ++
          (if (f1 :: fr : List ℕ) = [] then [] else '.' :: (f1 :: fr).map digitChar)) =
          '-' :: (digitChar d0 :: (ds'.map digitChar ++ '.' :: (f1 :: fr).map digitChar))
          from by simp [hnatc]]
      have hdwm : List.dropWhile (fun c => wsChar c)
          ('-' :: (digitChar d0 :: (ds'.map digitChar ++ '.' :: (f1 :: fr).map digitChar))) =
          '-' :: (digitChar d0 :: (ds'.map digitChar ++ '.' :: (f1 :: fr).map digitChar)) := by
        simp [show wsChar '-' = false from rfl]
      simp only [parseFloatQ, hdwm,
        show ∀ l : List Char, parseSign ('-' :: l) = (-1, l) from fun l => rfl, htd,
        show ∀ l : List Char, parseFrac ('.' :: l) = takeDigits l from fun l => rfl,
        htd2, show parseExp ([] : List Char) = 0 from rfl]
      simp [hvalQ]

theorem parseFloatQ_renderLen (q : ℚ) :
    parseFloatQ (renderLen q) = some (round6 q) := by
  set n := toFixed6 q with hn
  set m := n.natAbs with hm
  set i := m / 1000000 with hi
  set f := m % 1000000 with hfd0
  have hmif : 1000000 * i + f = m := Nat.div_add_mod m 1000000
  have key : ∀ (v k : ℕ), k ≤ 6 → f = 10 ^ k * v →
      (if decide (n < 0) = true then (-1 : ℚ) else 1) *
        ((i : ℚ) + (v : ℚ) / 10 ^ (6 - k)) = round6 q := by
    intro v k hk hfv
    have hcast : (1000000 : ℚ) * (i : ℚ) + (f : ℚ) = (m : ℚ) := by exact_mod_cast hmif
    have hfQ : (f : ℚ) = 10 ^ k * (v : ℚ) := by exact_mod_cast hfv
    have hpow : (10 : ℚ) ^ k * 10 ^ (6 - k) = 10 ^ 6 := by
      rw [← pow_add]
      congr 1
      omega
    have hmabs : (m : ℚ) = |(n : ℚ)| := by
      rw [hm]
      exact_mod_cast Nat.cast_natAbs (α := ℚ) n
    have hvdiv : (v : ℚ) / 10 ^ (6 - k) = (10 ^ k * (v : ℚ)) / 10 ^ 6 := by
      rw [div_eq_div_iff (by positivity) (by positivity)]
      linear_combination (-(v : ℚ)) * hpow
    have h1 : (i : ℚ) + (v : ℚ) / 10 ^ (6 - k) = (m : ℚ) / 10 ^ 6 := by
      rw [hvdiv, ← hfQ, ← hcast]
      field_simp
      ring
    simp only [round6, ← hn]
    by_cases hneg : n < 0
    · have hnQ : (n : ℚ) < 0 := by exact_mod_cast hneg
      rw [abs_of_neg hnQ] at hmabs
      simp only [decide_eq_true_eq, if_pos hneg, h1, hmabs]
      ring
    · have hnQ : (0 : ℚ) ≤ (n : ℚ) := by exact_mod_cast not_lt.mp hneg
      rw [abs_of_nonneg hnQ] at hmabs
      simp only [decide_eq_true_eq, if_neg hneg, h1, hmabs]
      ring
  by_cases hfz : f = 0
  · have harg : renderLen q = (if decide (n < 0) then ['-'] else []) ++ natChars i ++
        (if ([] : List ℕ) = [] then [] else '.' :: ([] : List ℕ).map digitChar) := by
      simp only [renderLen]
      rw [← hn, ← hm, ← hi, ← hfd0]
      simp [hfz, decide_eq_true_eq]
    rw [harg, parseFloatQ_canon _ i [] (by simp)]
    have hk := key 0 6 (by norm_num) (by simp [hfz])
    simp only [Option.some.injEq]
    have hz : ofDigitsBE ([] : List ℕ) = 0 := rfl
    simp [hz] at hk ⊢
    exact hk
  · set fds := ((Nat.digits 10 f ++
        List.replicate (6 - (Nat.digits 10 f).length) 0).dropWhile (· = 0)).reverse
      with hfds
    have hds6 : (Nat.digits 10 f).length ≤ 6 := by
      have hflt : f < 10 ^ 6 := by
        rw [hfd0]
        exact Nat.mod_lt _ (by norm_num)
      have := Nat.log_lt_of_lt_pow hfz hflt
      rw [Nat.digits_len 10 f (by norm_num) hfz]
      omega
    have hpadlen : (Nat.digits 10 f ++
        List.replicate (6 - (Nat.digits 10 f).length) 0).length = 6 := by
      simp
      omega
    have hofpad : Nat.ofDigits 10 (Nat.digits 10 f ++
        List.replicate (6 - (Nat.digits 10 f).length) 0) = f := by
      rw [Nat.ofDigits_append, Nat.ofDigits_digits, ofDigits_replicate_zero]
      simp
    set k := ((Nat.digits 10 f ++
        List.replicate (6 - (Nat.digits 10 f).length) 0).takeWhile (· = 0)).length
      with hk0
    have hsplit : (Nat.digits 10 f ++
        List.replicate (6 - (Nat.digits 10 f).length) 0) =
        List.replicate k 0 ++ ((Nat.digits 10 f ++
          List.replicate (6 - (Nat.digits 10 f).length) 0).dropWhile (· = 0)) := by
      conv_lhs => rw [← List.takeWhile_append_dropWhile (p := (· = 0))
        (l := Nat.digits 10 f ++ List.replicate (6 - (Nat.digits 10 f).length) 0)]
      congr 1
      rw [List.eq_replicate_iff]
      refine ⟨by rw [hk0], ?_⟩
      intro b hb
      have := List.mem_takeWhile_imp hb
      simpa using this
    set stripped := (Nat.digits 10 f ++
        List.replicate (6 - (Nat.digits 10 f).length) 0).dropWhile (· = 0)
      with hstr
    have hfval : f = 10 ^ k * Nat.ofDigits 10 stripped := by
      rw [← hofpad]
      conv_lhs => rw [hsplit]
      rw [Nat.ofDigits_append, ofDigits_replicate_zero, List.length_replicate]
      simp
    have hkstr : k + stripped.length = 6 := by
      have := congrArg List.length hsplit
      simp only [List.length_append, List.length_replicate] at this
      omega
    have hstr_ne : stripped ≠ [] := by
      intro h
      rw [h] at hfval
      simp [Nat.ofDigits_nil] at hfval
      exact hfz hfval
    have hfds_ne : fds ≠ [] := by
      rw [hfds]
      simpa using hstr_ne
    have hfd : ∀ d ∈ fds, d < 10 := by
      intro d hd
      rw [hfds] at hd
      rw [List.mem_reverse] at hd
      have hd2 := (List.dropWhile_sublist (l := Nat.digits 10 f ++
        List.replicate (6 - (Nat.digits 10 f).length) 0) (· = 0)).mem hd
      rcases List.mem_append.mp hd2 with h | h
      · exact Nat.digits_lt_base (by norm_num) h
      · have := List.eq_of_mem_replicate h
        omega
    have harg : renderLen q = (if decide (n < 0) then ['-'] else []) ++ natChars i ++
        (if fds = [] then [] else '.' :: fds.map digitChar) := by
      simp only [renderLen, fracChars]
      rw [← hn, ← hm, ← hi, ← hfd0]
      simp only [hfz, if_false, decide_eq_true_eq, hfds_ne, ← hfds]
      simp [hfz, decide_eq_true_eq, hfds_ne]
    rw [harg, parseFloatQ_canon _ i fds hfd]
    have hval2 : (ofDigitsBE fds : ℕ) = Nat.ofDigits 10 stripped := by
      rw [hfds, ofDigitsBE_eq, List.reverse_reverse]
    have hlen2 : fds.length = 6 - k := by
      rw [hfds]
      simp only [List.length_reverse]
      omega
    have hk2 := key (Nat.ofDigits 10 stripped) k (by omega) hfval
    simp only [Option.some.injEq, hval2, hlen2]
    exact hk2

theorem round6_close (q : ℚ) : |round6 q - q| ≤ 1 / 2000000 := by
  have h1 : ((⌊q * 1000000 + 1 / 2⌋ : ℤ) : ℚ) ≤ q * 1000000 + 1 / 2 :=
    Int.floor_le _
  have h2 : q * 1000000 + 1 / 2 < (⌊q * 1000000 + 1 / 2⌋ : ℚ) + 1 :=
    Int.lt_floor_add_one _
  rw [abs_le]
  constructor <;> simp only [round6, toFixed6] <;> linarith

/-! ### C7: the serialization format -/

/-- C7 (amended): `toNewick` always appends the trailing `";"`; a leaf
renders as `name:length` with an empty (normalized) name replaced by the
literal `"Unnamed"`; an internal node renders as `(children...)name:length`
with NO `"Unnamed"` defaulting; whitespace in names becomes `_`
(`normChars`); and a present length is printed as its 6-decimal rounding
(`renderLen` reparses exactly to `round6 q`, which is within `5e-7` of
`q`). -/
theorem toNewick_format :
    (∀ t : TreeNode, (toNewick t).toList.getLast? = some ';') ∧
    (∀ d : NodeData, serTree (.mk d []) =
      (if (normChars (d.name.getD "").toList).isEmpty then "Unnamed".toList
        else normChars (d.name.getD "").toList) ++
        (d.length.elim [] fun q => ':' :: renderLen q)) ∧
    (∀ (d : NodeData) (c : TreeNode) (cs : List TreeNode),
      serTree (.mk d (c :: cs)) =
        '(' :: ((serTree c ++ serMore cs) ++ ')' ::
          (normChars (d.name.getD "").toList ++
            (d.length.elim [] fun q => ':' :: renderLen q)))) ∧
    (∀ q : ℚ, parseFloatQ (renderLen q) = some (round6 q)) ∧
    (∀ q : ℚ, |round6 q - q| ≤ 1 / 2000000) := by
  refine ⟨?_, ?_, ?_, parseFloatQ_renderLen, round6_close⟩
  · intro t
    simp [toNewick, List.getLast?_concat, String.toList]
  · intro d
    cases hq : d.length with
    | none => simp [serTree, serLabel, labelChars, List.isEmpty_iff, hq]
    | some q => simp [serTree, serLabel, labelChars, List.isEmpty_iff, hq]
  · intro d c cs
    cases hq : d.length with
    | none => simp [serTree, serLabel, labelChars, List.isEmpty_iff, hq]
    | some q => simp [serTree, serLabel, labelChars, List.isEmpty_iff, hq]

/-- Counterexample for C7 as stated: an internal node with an empty name
renders with NO name between `)` and the length — only leaves default to
`"Unnamed"` (`name || "Unnamed"` appears in the leaf branch alone). -/
theorem toNewick_unnamed_counterexample :
    toNewick (.mk {} []) = "Unnamed;" ∧
    toNewick (.mk {} [.mk { name := some "A" } [], .mk { name := some "B" } []]) =
      "(A,B);" ∧
    toNewick (.mk {} [.mk { name := some "A" } [], .mk { name := some "B" } []]) ≠
      "(A,B)Unnamed;" := by
  have h3 : toNewick (.mk {} [.mk { name := some "A" } [],
      .mk { name := some "B" } []]) = "(A,B);" := by
    norm_num [toNewick, serTree, serMore, serLabel, normChars]
    decide
  refine ⟨?_, h3, ?_⟩
  · norm_num [toNewick, serTree, serLabel, labelChars, normChars]
  · rw [h3]
    decide

/-! ### C2: round-trip lemmas -/

theorem eatWS_nows (cs : List Char) (pos : ℕ)
    (h : ∀ c r, cs = c :: r → wsChar c = false) : eatWS cs pos = (cs, pos) := by
  cases cs with
  | nil => rfl
  | cons c r => simp [eatWS, h c r rfl]

theorem normChars_nows (l : List Char) : ∀ c ∈ normChars l, wsChar c = false := by
  intro c hc
  simp only [normChars, List.mem_map] at hc
  obtain ⟨a, _, heq⟩ := hc
  by_cases hw : wsChar a
  · simp only [hw, if_true] at heq
    rw [← heq]
    decide
  · simp only [hw, if_false] at heq
    rw [← heq]
    simpa using hw

theorem dropWhile_all_false {α : Type} (p : α → Bool) (l : List α)
    (h : ∀ c ∈ l, p c = false) : l.dropWhile p = l := by
  cases l with
  | nil => rfl
  | cons c r =>
    rw [List.dropWhile_cons_of_neg]
    simp [h c (List.mem_cons_self _ _)]

theorem trimWS_nows (l : List Char) (h : ∀ c ∈ l, wsChar c = false) :
    trimWS l = l := by
  rw [trimWS, dropWhile_all_false _ l h, dropWhile_all_false, List.reverse_reverse]
  intro c hc
  exact h c (List.mem_reverse.mp hc)

theorem mem_natChars (i : ℕ) (c : Char) (hc : c ∈ natChars i) :
    ∃ d, d < 10 ∧ c = digitChar d := by
  obtain ⟨ds, hnat, _, hlt, _⟩ := natChars_eq i
  rw [hnat, List.mem_map] at hc
  obtain ⟨d, hd, rfl⟩ := hc
  exact ⟨d, hlt d hd, rfl⟩

theorem mem_fracChars (f : ℕ) (c : Char) (hc : c ∈ fracChars f) :
    ∃ d, d < 10 ∧ c = digitChar d := by
  simp only [fracChars, List.mem_map] at hc
  obtain ⟨d, hd, rfl⟩ := hc
  refine ⟨d, ?_, rfl⟩
  rw [List.mem_reverse] at hd
  have hd2 := (List.dropWhile_sublist (fun x => decide (x = 0))).mem hd
  rcases List.mem_append.mp hd2 with h | h
  · exact Nat.digits_lt_base (by norm_num) h
  · have := List.eq_of_mem_replicate h
    omega

theorem renderLen_char (q : ℚ) (c : Char) (hc : c ∈ renderLen q) :
    c = '-' ∨ c = '.' ∨ ∃ d, d < 10 ∧ c = digitChar d := by
  simp only [renderLen] at hc
  rcases List.mem_append.mp hc with h | h
  · left
    rcases Classical.em (toFixed6 q < 0) with hneg | hneg
    · simp [hneg] at h
      exact h
    · simp [hneg] at h
  · rcases Classical.em ((toFixed6 q).natAbs % 1000000 = 0) with hz | hz
    · simp only [hz, if_true] at h
      exact .inr (.inr (mem_natChars _ c h))
    · simp only [hz, if_false] at h
      rcases List.mem_append.mp h with h2 | h2
      · exact .inr (.inr (mem_natChars _ c h2))
      · rcases List.mem_cons.mp h2 with h3 | h3
        · exact .inr (.inl h3)
        · exact .inr (.inr (mem_fracChars _ c h3))

theorem renderLen_no_stop (q : ℚ) (c : Char) (hc : c ∈ renderLen q) :
    ¬(c = ',' ∨ c = ')' ∨ c = ';') := by
  rcases renderLen_char q c hc with rfl | rfl | ⟨d, hd, rfl⟩
  · decide
  · decide
  · have h := digitChar_facts d hd
    rintro (h1 | h1 | h1)
    · exact h.2.2.2.2.2.2.1 h1
    · exact h.2.2.2.2.2.2.2.1 h1
    · exact h.2.2.2.2.2.2.2.2.1 h1

theorem takeName_run : ∀ (nm rest : List Char) (pos : ℕ),
    (∀ c ∈ nm, ¬(c = ':' ∨ c = ',' ∨ c = ')' ∨ c = ';')) →
    (rest = [] ∨ ∃ c r, rest = c :: r ∧ (c = ':' ∨ c = ',' ∨ c = ')' ∨ c = ';')) →
    takeName (nm ++ rest) pos = (nm, rest, pos + nm.length) := by
  intro nm
  induction nm with
  | nil =>
    intro rest pos _ hrest
    rcases hrest with rfl | ⟨c, r, rfl, hc⟩
    · rfl
    · have hb : (c = ':' || c = ',' || c = ')' || c = ';') = true := by
        rcases hc with h | h | h | h <;> simp [h]
      simp [takeName, hb]
  | cons a nm' ih =>
    intro rest pos hnm hrest
    have hsafe := hnm a (List.mem_cons_self _ _)
    push_neg at hsafe
    have hb : (a = ':' || a = ',' || a = ')' || a = ';') = false := by
      simp [hsafe.1, hsafe.2.1, hsafe.2.2.1, hsafe.2.2.2]
    have ih' := ih rest (pos + 1) (fun c hc => hnm c (List.mem_cons_of_mem _ hc)) hrest
    simp only [List.cons_append, takeName, hb, Bool.false_eq_true, if_false,
      List.append_eq, ih', List.length_cons, Prod.mk.injEq]
    refine ⟨trivial, trivial, by omega⟩

theorem takeLenChars_run : ∀ (lc rest : List Char) (pos : ℕ),
    (∀ c ∈ lc, ¬(c = ',' ∨ c = ')' ∨ c = ';')) →
    (rest = [] ∨ ∃ c r, rest = c :: r ∧ (c = ',' ∨ c = ')' ∨ c = ';')) →
    takeLenChars (lc ++ rest) pos = (lc, rest, pos + lc.length) := by
  intro lc
  induction lc with
  | nil =>
    intro rest pos _ hrest
    rcases hrest with rfl | ⟨c, r, rfl, hc⟩
    · rfl
    · have hb : (c = ',' || c = ')' || c = ';') = true := by
        rcases hc with h | h | h <;> simp [h]
      simp [takeLenChars, hb]
  | cons a lc' ih =>
    intro rest pos hnm hrest
    have hsafe := hnm a (List.mem_cons_self _ _)
    push_neg at hsafe
    have hb : (a = ',' || a = ')' || a = ';') = false := by
      simp [hsafe.1, hsafe.2.1, hsafe.2.2]
    have ih' := ih rest (pos + 1) (fun c hc => hnm c (List.mem_cons_of_mem _ hc)) hrest
    simp only [List.cons_append, takeLenChars, hb, Bool.false_eq_true, if_false,
      List.append_eq, ih', List.length_cons, Prod.mk.injEq]
    refine ⟨trivial, trivial, by omega⟩

theorem labelChars_ne_nil (d : NodeData) : labelChars d true ≠ [] := by
  simp only [labelChars]
  split
  · simp
  · next h =>
    simp only [Bool.true_and] at h
    simpa [List.isEmpty_iff] using h

theorem labelChars_no_stop (d : NodeData) (leaf : Bool) (hwf : wfName d.name = true) :
    ∀ c ∈ labelChars d leaf, ¬(c = ':' ∨ c = ',' ∨ c = ')' ∨ c = ';') := by
  intro c hc
  simp only [labelChars] at hc
  rw [wfName, List.all_eq_true] at hwf
  split at hc
  · have : c = 'U' ∨ c = 'n' ∨ c = 'a' ∨ c = 'm' ∨ c = 'e' ∨ c = 'd' := by
      simpa using hc
    rcases this with rfl | rfl | rfl | rfl | rfl | rfl <;> decide
  · have := hwf c hc
    simp only [Bool.not_eq_true', Bool.or_eq_false_iff] at this
    rintro (h | h | h | h) <;> simp [h] at this

theorem labelChars_nows (d : NodeData) (leaf : Bool) :
    ∀ c ∈ labelChars d leaf, wsChar c = false := by
  intro c hc
  simp only [labelChars] at hc
  split at hc
  · have : c = 'U' ∨ c = 'n' ∨ c = 'a' ∨ c = 'm' ∨ c = 'e' ∨ c = 'd' := by
      simpa using hc
    rcases this with rfl | rfl | rfl | rfl | rfl | rfl <;> decide
  · exact normChars_nows _ c hc

theorem labelChars_no_paren (d : NodeData) (hok : leafNameOk d.name = true) :
    ∀ a l, labelChars d true = a :: l → a ≠ '(' := by
  intro a l h
  simp only [labelChars, Bool.true_and] at h
  rw [leafNameOk] at hok
  split at h
  · rw [List.cons.injEq] at h
    rw [← h.1]
    decide
  · rw [h] at hok
    simpa using hok

theorem finishNode_run (d : NodeData) (leaf : Bool) (kids : List TreeNode)
    (rest : List Char) (pos : ℕ) (hwf : wfName d.name = true)
    (hrest : rest = [] ∨ ∃ c r, rest = c :: r ∧ (c = ',' ∨ c = ')' ∨ c = ';')) :
    finishNode kids (serLabel d leaf ++ rest) pos =
      (.one (.mk { name := if labelChars d leaf = [] then none
                    else some ⟨labelChars d leaf⟩,
                   length := d.length.map round6 } kids),
        rest, pos + (serLabel d leaf).length) := by
  have hstop' : rest = [] ∨ ∃ c r, rest = c :: r ∧
      (c = ':' ∨ c = ',' ∨ c = ')' ∨ c = ';') := by
    rcases hrest with rfl | ⟨c, r, rfl, hc⟩
    · exact .inl rfl
    · exact .inr ⟨c, r, rfl, .inr hc⟩
  have htrim : trimWS (labelChars d leaf) = labelChars d leaf :=
    trimWS_nows _ (labelChars_nows d leaf)
  cases hq : d.length with
  | none =>
    have hser : serLabel d leaf = labelChars d leaf := by
      simp [serLabel, hq]
    have hws : ∀ c r, (labelChars d leaf ++ rest) = c :: r → wsChar c = false := by
      intro c r h
      cases hl : labelChars d leaf with
      | cons a l' =>
        rw [hl, List.cons_append, List.cons.injEq] at h
        rw [← h.1]
        exact labelChars_nows d leaf a (by rw [hl]; exact List.mem_cons_self _ _)
      | nil =>
        rw [hl, List.nil_append] at h
        rcases hrest with rfl | ⟨c2, r2, rfl, hc2⟩
        · cases h
        · rw [List.cons.injEq] at h
          rw [← h.1]
          rcases hc2 with rfl | rfl | rfl <;> rfl
    have htn := takeName_run (labelChars d leaf) rest pos
      (labelChars_no_stop d leaf hwf) hstop'
    rw [hser]
    simp only [finishNode, eatWS_nows _ _ hws, htn, htrim]
    rcases hrest with rfl | ⟨c, r, rfl, hc⟩
    · simp [hq]
    · have hc' : c ≠ ':' := by rcases hc with rfl | rfl | rfl <;> decide
      split
      · next heq => rw [List.cons.injEq] at heq; exact absurd heq.1 hc'
      · simp [hq]
  | some q =>
    have hser2 : serLabel d leaf ++ rest =
        labelChars d leaf ++ (':' :: (renderLen q ++ rest)) := by
      simp [serLabel, hq]
    have hws : ∀ c r, (labelChars d leaf ++ (':' :: (renderLen q ++ rest))) = c :: r →
        wsChar c = false := by
      intro c r h
      cases hl : labelChars d leaf with
      | cons a l' =>
        rw [hl, List.cons_append, List.cons.injEq] at h
        rw [← h.1]
        exact labelChars_nows d leaf a (by rw [hl]; exact List.mem_cons_self _ _)
      | nil =>
        rw [hl, List.nil_append, List.cons.injEq] at h
        rw [← h.1]
        rfl
    have htn := takeName_run (labelChars d leaf) (':' :: (renderLen q ++ rest)) pos
      (labelChars_no_stop d leaf hwf)
      (.inr ⟨':', renderLen q ++ rest, rfl, .inl rfl⟩)
    have htl := takeLenChars_run (renderLen q) rest
      (pos + (labelChars d leaf).length + 1) (renderLen_no_stop q) hrest
    rw [hser2]
    simp only [finishNode, eatWS_nows _ _ hws, htn, htrim, htl,
      parseFloatQ_renderLen, Option.getD_some, hq, Option.map_some]
    simp only [Prod.mk.injEq, serLabel, hq, List.length_append, List.length_cons]
    exact ⟨by rfl, trivial, by omega⟩

theorem serTree_leaf (d : NodeData) : serTree (.mk d []) = serLabel d true := by
  simp [serTree]

theorem serTree_node (d : NodeData) (c : TreeNode) (cs : List TreeNode) :
    serTree (.mk d (c :: cs)) =
      '(' :: ((serTree c ++ serMore cs) ++ ')' :: serLabel d false) := by
  simp [serTree]

theorem serMore_nil : serMore [] = [] := by simp [serMore]

theorem serMore_cons (c : TreeNode) (cs : List TreeNode) :
    serMore (c :: cs) = ',' :: (serTree c ++ serMore cs) := by
  simp [serMore]

theorem rtTree_leaf (d : NodeData) :
    rtTree (.mk d []) =
      .mk { name := some ⟨labelChars d true⟩, length := d.length.map round6 } [] := by
  simp [rtTree]

theorem rtTree_node (d : NodeData) (c : TreeNode) (cs : List TreeNode) :
    rtTree (.mk d (c :: cs)) =
      .mk { name := if labelChars d false = [] then none else some ⟨labelChars d false⟩,
            length := d.length.map round6 }
        (rtTree c :: rtTreeList cs) := by
  simp [rtTree]

theorem rtTreeList_nil : rtTreeList [] = [] := by simp [rtTreeList]

theorem rtTreeList_cons (c : TreeNode) (cs : List TreeNode) :
    rtTreeList (c :: cs) = rtTree c :: rtTreeList cs := by
  simp [rtTreeList]

theorem wfTree_leaf (d : NodeData) :
    wfTree (.mk d []) = (wfName d.name && leafNameOk d.name) := by
  simp [wfTree]

theorem wfTree_node (d : NodeData) (c : TreeNode) (cs : List TreeNode) :
    wfTree (.mk d (c :: cs)) = (wfName d.name && wfTree c && wfTreeList cs) := by
  simp [wfTree]

theorem wfTreeList_cons (c : TreeNode) (cs : List TreeNode) :
    wfTreeList (c :: cs) = (wfTree c && wfTreeList cs) := by
  simp [wfTreeList]

theorem treeSize_mk' (d : NodeData) (cs : List TreeNode) :
    treeSize (.mk d cs) = 1 + treeSizeList cs := by
  simp [treeSize]

theorem treeSizeList_cons (c : TreeNode) (cs : List TreeNode) :
    treeSizeList (c :: cs) = treeSize c + treeSizeList cs := by
  simp [treeSizeList]

theorem parse_run_sound : ∀ N : ℕ,
    (∀ t : TreeNode, treeSize t ≤ N →
      ∀ (fuel : ℕ) (rest : List Char) (pos : ℕ), wfTree t = true →
        2 * (serTree t).length + 1 ≤ fuel →
        (rest = [] ∨ ∃ ch r, rest = ch :: r ∧ (ch = ',' ∨ ch = ')' ∨ ch = ';')) →
        parseRun fuel .one (serTree t ++ rest) pos =
          .ok (.one (rtTree t), rest, pos + (serTree t).length)) ∧
    (∀ (c : TreeNode) (cs : List TreeNode), treeSize c + treeSizeList cs ≤ N →
      ∀ (acc : List TreeNode) (fuel : ℕ) (rest : List Char) (pos : ℕ),
        wfTree c = true → wfTreeList cs = true →
        2 * (serTree c ++ serMore cs).length + 2 ≤ fuel →
        parseRun fuel (.many acc) ((serTree c ++ serMore cs) ++ ')' :: rest) pos =
          .ok (.many (acc ++ rtTree c :: rtTreeList cs), rest,
            pos + (serTree c ++ serMore cs).length + 1)) := by
  intro N
  induction N using Nat.strong_induction_on with
  | _ N IH =>
  have partA : ∀ t : TreeNode, treeSize t ≤ N →
      ∀ (fuel : ℕ) (rest : List Char) (pos : ℕ), wfTree t = true →
        2 * (serTree t).length + 1 ≤ fuel →
        (rest = [] ∨ ∃ ch r, rest = ch :: r ∧ (ch = ',' ∨ ch = ')' ∨ ch = ';')) →
        parseRun fuel .one (serTree t ++ rest) pos =
          .ok (.one (rtTree t), rest, pos + (serTree t).length) := by
    intro t hsize fuel rest pos hwf hfuel hrest
    obtain ⟨fuel', rfl⟩ : ∃ f, fuel = f + 1 := ⟨fuel - 1, by omega⟩
    obtain ⟨d, cs0⟩ := t
    cases cs0 with
    | nil =>
      rw [wfTree_leaf, Bool.and_eq_true] at hwf
      obtain ⟨hname, hok⟩ := hwf
      rw [serTree_leaf] at hfuel ⊢
      obtain ⟨a, l', hl⟩ : ∃ a l', labelChars d true = a :: l' := by
        cases h : labelChars d true with
        | nil => exact absurd h (labelChars_ne_nil d)
        | cons x xs => exact ⟨x, xs, rfl⟩
      have hws : ∀ ch r, (serLabel d true ++ rest) = ch :: r → wsChar ch = false := by
        intro ch r h
        simp only [serLabel, hl, List.cons_append, List.append_assoc,
          List.cons.injEq] at h
        rw [← h.1]
        exact labelChars_nows d true a (by rw [hl]; exact List.mem_cons_self _ _)
      simp only [parseRun, eatWS_nows _ _ hws]
      split
      · next heq =>
        exfalso
        simp only [serLabel, hl, List.cons_append, List.append_assoc,
          List.cons.injEq] at heq
        exact labelChars_no_paren d hok a l' hl heq.1
      · rw [finishNode_run d true [] rest pos hname hrest, rtTree_leaf]
        simp [if_neg (labelChars_ne_nil d)]
    | cons c cs =>
      rw [wfTree_node, Bool.and_eq_true, Bool.and_eq_true] at hwf
      obtain ⟨⟨hname, hwfc⟩, hwfcs⟩ := hwf
      rw [serTree_node] at hfuel ⊢
      have hsz : treeSize c + treeSizeList cs < N := by
        rw [treeSize_mk', treeSizeList_cons] at hsize
        have := treeSize_pos c
        omega
      have hB := (IH (treeSize c + treeSizeList cs) hsz).2 c cs le_rfl [] fuel'
        (serLabel d false ++ rest) (pos + 1) hwfc hwfcs
        (by simp only [List.length_cons, List.length_append] at hfuel ⊢; omega)
      simp only [List.cons_append, List.append_assoc]
      have hws : ∀ ch r,
          ('(' :: (serTree c ++ (serMore cs ++ ')' :: (serLabel d false ++ rest)))) =
            ch :: r → wsChar ch = false := by
        intro ch r h
        rw [List.cons.injEq] at h
        rw [← h.1]
        rfl
      simp only [List.append_assoc, List.cons_append] at hB
      simp only [parseRun, eatWS_nows _ _ hws, hB]
      rw [finishNode_run d false ([] ++ rtTree c :: rtTreeList cs) rest _ hname hrest,
        rtTree_node]
      simp only [List.nil_append, Except.ok.injEq, Prod.mk.injEq, PRes.one.injEq,
        List.length_cons, List.length_append]
      all_goals exact ⟨by trivial, by trivial, by omega⟩
  refine ⟨partA, ?_⟩
  intro c cs hsize acc fuel rest pos hwfc hwfcs hfuel
  obtain ⟨fuel', rfl⟩ : ∃ f, fuel = f + 1 := ⟨fuel - 1, by omega⟩
  cases cs with
  | nil =>
    rw [serMore_nil] at hfuel ⊢
    have hA := partA c (by have := hsize; rw [treeSizeList] at this; omega) fuel'
      (')' :: rest) pos hwfc
      (by simp only [List.length_append, List.append_nil] at hfuel ⊢; omega)
      (.inr ⟨')', rest, rfl, .inr (.inl rfl)⟩)
    have hws : ∀ ch r, (')' :: rest : List Char) = ch :: r → wsChar ch = false := by
      intro ch r h
      rw [List.cons.injEq] at h
      rw [← h.1]
      rfl
    simp only [List.append_nil] at hfuel ⊢
    simp only [parseRun, hA, eatWS_nows _ _ hws]
    simp only [Except.ok.injEq, Prod.mk.injEq, rtTreeList_nil]
    all_goals exact ⟨by trivial, by trivial, by omega⟩
  | cons c2 cs' =>
    rw [serMore_cons] at hfuel ⊢
    have hA := partA c (by rw [treeSizeList_cons] at hsize; omega) fuel'
      (',' :: ((serTree c2 ++ serMore cs') ++ ')' :: rest)) pos hwfc
      (by simp only [List.length_cons, List.length_append] at hfuel ⊢; omega)
      (.inr ⟨',', (serTree c2 ++ serMore cs') ++ ')' :: rest, rfl, .inl rfl⟩)
    rw [wfTreeList_cons, Bool.and_eq_true] at hwfcs
    obtain ⟨hwfc2, hwfcs'⟩ := hwfcs
    have hsz2 : treeSize c2 + treeSizeList cs' < N := by
      rw [treeSizeList_cons] at hsize
      have := treeSize_pos c
      omega
    have hB2 := (IH (treeSize c2 + treeSizeList cs') hsz2).2 c2 cs' le_rfl
      (acc ++ [rtTree c]) fuel' rest
      (pos + (serTree c).length + 1) hwfc2 hwfcs'
      (by simp only [List.length_cons, List.length_append] at hfuel ⊢; omega)
    have hws : ∀ ch r,
        ((',' :: (serTree c2 ++ (serMore cs' ++ ')' :: rest))) : List Char) = ch :: r →
          wsChar ch = false := by
      intro ch r h
      rw [List.cons.injEq] at h
      rw [← h.1]
      rfl
    simp only [List.append_assoc, List.cons_append] at hA hB2 ⊢
    simp only [List.nil_append] at hB2
    simp only [parseRun, hA,
      eatWS_nows (',' :: (serTree c2 ++ (serMore cs' ++ ')' :: rest)))
        (pos + (serTree c).length) hws, hB2]
    simp only [Except.ok.injEq, Prod.mk.injEq, rtTreeList_cons, List.append_assoc,
      List.singleton_append, List.length_cons, List.length_append]
    all_goals exact ⟨trivial, trivial, by omega⟩

theorem rtTreeList_eq (l : List TreeNode) : rtTreeList l = l.map rtTree := by
  induction l with
  | nil => simp [rtTreeList_nil]
  | cons c cs ih => simp [rtTreeList_cons, ih]

theorem rtTree_children (t : TreeNode) :
    (rtTree t).children = t.children.map rtTree := by
  obtain ⟨d, cs⟩ := t
  cases cs with
  | nil => simp [rtTree_leaf]
  | cons c cs' => simp [rtTree_node, rtTreeList_eq]

theorem rtTree_length_data (t : TreeNode) :
    (rtTree t).data.length = t.data.length.map round6 := by
  obtain ⟨d, cs⟩ := t
  cases cs with
  | nil => simp [rtTree_leaf]
  | cons c cs' => simp [rtTree_node]

theorem getPath_rtTree : ∀ (p : List ℕ) (t : TreeNode),
    getPath (rtTree t) p = (getPath t p).map rtTree := by
  intro p
  induction p with
  | nil => intro t; simp [getPath]
  | cons i p ih =>
    intro t
    rcases hc : t.children[i]? with _ | c
    · simp [getPath, rtTree_children, List.get?_eq_getElem?, List.getElem?_map, hc]
    · simp [getPath, rtTree_children, List.get?_eq_getElem?, List.getElem?_map, hc, ih c]

theorem treeSize_rtTree : ∀ t : TreeNode, treeSize (rtTree t) = treeSize t := by
  refine TreeNode.ind ?_
  intro d cs ih
  have h1 : cs.map (fun x => treeSize (rtTree x)) = cs.map treeSize :=
    List.map_congr_left fun c hc => ih c hc
  cases cs with
  | nil => simp [rtTree_leaf, treeSize_mk]
  | cons c cs' =>
    simp only [rtTree_node, treeSize_mk, rtTreeList_eq, ← List.map_cons, List.map_map,
      Function.comp_def, h1]

theorem numTips_rtTree : ∀ t : TreeNode, numTips (rtTree t) = numTips t := by
  refine TreeNode.ind ?_
  intro d cs ih
  have h1 : cs.map (fun x => numTips (rtTree x)) = cs.map numTips :=
    List.map_congr_left fun c hc => ih c hc
  cases cs with
  | nil => simp [rtTree_leaf, numTips_mk]
  | cons c cs' =>
    simp only [rtTree_node, numTips_mk, rtTreeList_eq, ← List.map_cons, List.map_map,
      Function.comp_def, h1]
    simp

theorem parseNewick_toNewick (t : TreeNode) (hwf : wfTree t = true) :
    parseNewick (toNewick t) = .ok (rtTree t) := by
  have hA := (parse_run_sound (treeSize t)).1 t le_rfl
    (2 * (toNewick t).length + 4) [';'] 0 hwf
    (by simp [toNewick, String.length]; omega)
    (.inr ⟨';', [], rfl, .inr (.inr rfl)⟩)
  simp only [parseNewick, show (toNewick t).toList = serTree t ++ [';'] from rfl, hA]

/-- C2 (amended): for every Newick-safe tree (`wfTree`: names free of the
parser's delimiter characters `: , ) ;` and no leaf name starting with
`(`), `parseNewick (toNewick t)` succeeds and returns exactly the
normalization `rtTree t` of `t`: the same ordered child structure
(witnessed node-by-node along every path, and by the node and tip
counts), names modulo whitespace-to-underscore normalization and
empty-leaf-name defaulting to `"Unnamed"`, and every length replaced by
its 6-decimal rounding, which is within `1e-6` of the original. -/
theorem roundtrip_spec (t : TreeNode) (hwf : wfTree t = true) :
    parseNewick (toNewick t) = .ok (rtTree t) ∧
    treeSize (rtTree t) = treeSize t ∧
    numTips (rtTree t) = numTips t ∧
    (∀ (p : List ℕ) (tgt : TreeNode), getPath t p = some tgt →
      getPath (rtTree t) p = some (rtTree tgt) ∧
      (rtTree tgt).children.length = tgt.children.length ∧
      (rtTree tgt).data.length = tgt.data.length.map round6 ∧
      (∀ L, tgt.data.length = some L →
        ∃ L2, (rtTree tgt).data.length = some L2 ∧ |L2 - L| ≤ 1 / 2000000)) := by
  refine ⟨parseNewick_toNewick t hwf, treeSize_rtTree t, numTips_rtTree t, ?_⟩
  intro p tgt hp
  refine ⟨by rw [getPath_rtTree, hp]; rfl, ?_, rtTree_length_data tgt, ?_⟩
  · rw [rtTree_children]
    simp
  · intro L hL
    refine ⟨round6 L, by rw [rtTree_length_data, hL]; rfl, ?_⟩
    have := round6_close L
    linarith [this, abs_nonneg (round6 L - L)]

unseal Rat.add Rat.mul Rat.inv Rat.sub in
/-- Witness for C2: the spec's example tree is Newick-safe, reparses to
its own normalization, and that normalization is the tree itself (its
lengths are exact 6-decimal values). -/
theorem roundtrip_spec_witness :
    parseNewick (toNewick exampleTree) = .ok (rtTree exampleTree) ∧
    rtTree exampleTree = exampleTree ∧
    parseNewick (toNewick exampleTree) = .ok exampleTree := by
  have h := roundtrip_spec exampleTree
    (by norm_num [exampleTree, wfTree, wfTreeList]; decide)
  have f1 : round6 (1 / 10 : ℚ) = 1 / 10 := by
    rw [round6, toFixed6]
    norm_num [show ⌊(1 : ℚ) / 10 * 1000000 + 1 / 2⌋ = 100000 from by decide]
  have f2 : round6 (2 / 10 : ℚ) = 2 / 10 := by
    rw [round6, toFixed6]
    norm_num [show ⌊(2 : ℚ) / 10 * 1000000 + 1 / 2⌋ = 200000 from by decide]
  have f3 : round6 (3 / 10 : ℚ) = 3 / 10 := by
    rw [round6, toFixed6]
    norm_num [show ⌊(3 : ℚ) / 10 * 1000000 + 1 / 2⌋ = 300000 from by decide]
  have f4 : round6 (4 / 10 : ℚ) = 4 / 10 := by
    rw [round6, toFixed6]
    norm_num [show ⌊(4 : ℚ) / 10 * 1000000 + 1 / 2⌋ = 400000 from by decide]
  have f5 : round6 (5 / 10 : ℚ) = 5 / 10 := by
    rw [round6, toFixed6]
    norm_num [show ⌊(5 : ℚ) / 10 * 1000000 + 1 / 2⌋ = 500000 from by decide]
  have hrt : rtTree exampleTree = exampleTree := by
    norm_num [exampleTree, rtTree, rtTreeList, labelChars, normChars, f1, f2, f3, f4, f5]
    decide
  exact ⟨h.1, hrt, by rw [h.1, hrt]⟩

/-- Counterexample for C2 as stated: a leaf whose name starts with `(`
serializes to `"(x;"`, which the parser reads as an unterminated group
and rejects (offset `2`) — so `parse(serialize(t))` does not reproduce
every tree, only Newick-safe ones. -/
theorem roundtrip_counterexample :
    toNewick (.mk { name := some "(x" } []) = "(x;" ∧
    parseNewick (toNewick (.mk { name := some "(x" } [])) = .error ⟨2⟩ := by
  have h1 : toNewick (.mk { name := some "(x" } []) = "(x;" := by
    norm_num [toNewick, serTree, serLabel, labelChars, normChars]
    decide
  exact ⟨h1, by rw [h1]; rfl⟩
